import Mathlib

/-!
Verification development for a lock-free split-ordered hash table
(`lockfree_hashtable.h`, `reclaimer.h`).

The C++ sources are shallowly embedded:

* machine integers (`size_t`) become `Nat`; the hash values handled by the
  table are 64-bit, so theorems carry explicit `< 2 ^ 64` bounds where the
  width matters;
* the split-ordered linked list of nodes becomes a `List` of nodes and the
  lazily allocated bucket/segment tree becomes the set of bucket indices
  whose head slot has been installed (the tree is only an addressing
  scheme for those slots);
* the sources are embedded in their single-threaded executions: every
  `compare_exchange` succeeds, since no other thread can intervene between
  the read and the CAS, and consequently a logically deleted (marked) node
  is physically unlinked inside the same `DeleteNode` call that marked it,
  so the marked-node cleanup branch of `SearchNode` never fires and lists
  never retain marked nodes;
* `delete`/`ReclaimLater` of displaced values are recorded in explicit
  logs so that inline frees and deferred retirement can be told apart.
-/

set_option maxRecDepth 20000
set_option linter.unusedVariables false
set_option linter.unreachableTactic false
set_option linter.unnecessarySeqFocus false
set_option linter.unusedTactic false
set_option linter.unusedSectionVars false

namespace SplitOrder

/-! ## Bit-reverse lookup table (lockfree_hashtable.h lines 336-343)

The C++ macros
`R2(n) = n, n + 2*64, n + 1*64, n + 3*64`,
`R4(n) = R2(n), R2(n + 2*16), R2(n + 1*16), R2(n + 3*16)`,
`R6(n) = R4(n), R4(n + 2*4), R4(n + 1*4), R4(n + 3*4)`
expand to the 256-entry initializer `{R6(0), R6(2), R6(1), R6(3)}`. -/

def R2 (n : Nat) : List Nat := [n, n + 2 * 64, n + 1 * 64, n + 3 * 64]

def R4 (n : Nat) : List Nat :=
  R2 n ++ R2 (n + 2 * 16) ++ R2 (n + 1 * 16) ++ R2 (n + 3 * 16)

def R6 (n : Nat) : List Nat :=
  R4 n ++ R4 (n + 2 * 4) ++ R4 (n + 1 * 4) ++ R4 (n + 3 * 4)

/-- The static table `reverse8bits_[256]`. -/
def reverse8bits : List Nat := R6 0 ++ R6 2 ++ R6 1 ++ R6 3

/-- `reverse8bits_[i]`, the array subscript of the static table. -/
def tbl (i : Nat) : Nat := reverse8bits.getD i 0

/-- `Node::Reverse` (lines 235-244): the 64-bit reverse composed of eight
8-bit table lookups, shifts and ORs, exactly as in the source. -/
def Reverse (hash : Nat) : Nat :=
  tbl (hash &&& 0xff) <<< 56 |||
  tbl ((hash >>> 8) &&& 0xff) <<< 48 |||
  tbl ((hash >>> 16) &&& 0xff) <<< 40 |||
  tbl ((hash >>> 24) &&& 0xff) <<< 32 |||
  tbl ((hash >>> 32) &&& 0xff) <<< 24 |||
  tbl ((hash >>> 40) &&& 0xff) <<< 16 |||
  tbl ((hash >>> 48) &&& 0xff) <<< 8 |||
  tbl ((hash >>> 56) &&& 0xff)

/-- `Node::RegularKey` (line 245): reverse of the hash with its MSB set. -/
def RegularKey (hash : Nat) : Nat := Reverse (hash ||| 0x8000000000000000)

/-- `Node::DummyKey` (line 248): plain reverse of the bucket index. -/
def DummyKey (hash : Nat) : Nat := Reverse hash

/-! ## Specification of bitwise reversal

`revBits w h` is the number whose bit `i` (for `i < w`) is bit `w - 1 - i`
of `h`; this is the mathematical `w`-bit reversal against which the table
based code is checked. -/

def revBits : Nat → Nat → Nat
  | 0, _ => 0
  | w + 1, h => revBits w (h / 2) + h % 2 * 2 ^ w

/-! ## Reclaimer constants (reclaimer.h)

`const int kCoefficient = 4 + 1 / 4;` — C++ `int` arithmetic, so `1 / 4`
is integer division. `Nat` division truncates identically. -/

def kCoefficient : Nat := 4 + 1 / 4

def kHarzardPointersPerThread : Nat := 3

/-- The guard of `Reclaimer::ReclaimNoHazardPointer` (reclaimer.h lines
107-110): the function returns immediately when
`reclaim_map_.size() < kCoefficient * g_hazard_pointer_list.get_size()`,
so the scan-and-free pass runs exactly when this predicate holds. -/
def reclaimScanRuns (reclaimMapSize hazardListSize : Nat) : Bool :=
  !(decide (reclaimMapSize < kCoefficient * hazardListSize))

/-! ## Nodes of the split-ordered list

`Node` is a tagged union: `DummyNode` carries a bucket index (stored in
`hash`), `RegularNode` carries an owned key, the hash of that key and an
atomically replaceable value pointer. `reverse_hash` is derived in the
constructors (`DummyKey` for dummies, `RegularKey` for regulars); it is
recomputed on demand here, which is the same value since both fields are
immutable. A `RegularNode` used only for searching carries a null value
pointer, embedded as `none`. -/

inductive HNode (K V : Type) where
  | dummy (bucketIndex : Nat)
  | regular (key : K) (hash : Nat) (value : Option V)
  deriving DecidableEq

def HNode.hash {K V : Type} : HNode K V → Nat
  | .dummy b => b
  | .regular _ h _ => h

def HNode.reverse_hash {K V : Type} : HNode K V → Nat
  | .dummy b => DummyKey b
  | .regular _ h _ => RegularKey h

/-- `Node::IsDummy`, via the virtual overrides of the two variants. -/
def IsDummy {K V : Type} : HNode K V → Bool
  | .dummy _ => true
  | .regular _ _ _ => false

/-- `LockFreeHashTable::Less` (lines 181-194): compare by `reverse_hash`;
on equal reverse hashes the source asserts that both nodes are dummies and
answers `false`, unless both are regular, in which case it compares keys. -/
def Less {K V : Type} [LinearOrder K] (n1 n2 : HNode K V) : Bool :=
  if n1.reverse_hash ≠ n2.reverse_hash then decide (n1.reverse_hash < n2.reverse_hash)
  else
    match n1, n2 with
    | .regular k1 _ _, .regular k2 _ _ => decide (k1 < k2)
    | _, _ => false

def GreaterOrEquals {K V : Type} [LinearOrder K] (n1 n2 : HNode K V) : Bool :=
  !(Less n1 n2)

def Equals {K V : Type} [LinearOrder K] (n1 n2 : HNode K V) : Bool :=
  !(Less n1 n2) && !(Less n2 n1)

/-- `SearchNode` (lines 489-548) in its single-threaded execution: starting
with `cur = head->next`, traverse until `cur` is null or the first node
`GreaterOrEquals` the searched node, and report whether that node `Equals`
it. The source returns the `(prev, cur)` pointer pair; here the result is
the found flag together with the traversed prefix and the suffix starting
at `cur` (the pair is the boundary between them). The branch that unlinks
a marked node can never fire single-threaded: `DeleteNode` physically
unlinks the node it marks before returning, because without contention
every `compare_exchange` succeeds. -/
def SearchNode {K V : Type} [LinearOrder K] (sn : HNode K V) :
    List (HNode K V) → Bool × List (HNode K V) × List (HNode K V)
  | [] => (false, [], [])
  | cur :: rest =>
    if GreaterOrEquals cur sn then (Equals cur sn, [], cur :: rest)
    else
      let r := SearchNode sn rest
      (r.1, cur :: r.2.1, r.2.2)

/-- Locate the dummy head of bucket `b` inside the global list. The bucket
array of the segment tree stores a pointer to this node; every list
operation of the table starts from it. -/
def splitAtDummy {K V : Type} (b : Nat) :
    List (HNode K V) → Option (List (HNode K V) × List (HNode K V))
  | [] => none
  | n :: rest =>
    if IsDummy n && decide (n.hash = b) then some ([], rest)
    else
      match splitAtDummy b rest with
      | none => none
      | some (pre, tail) => some (n :: pre, tail)

/-! ## Table state

The segment tree (4 levels of 64 atomic slots) is only an addressing
scheme for lazily installed bucket head pointers; its functional content
is the set of bucket indices whose head has been installed, kept here as
`buckets`. `freedValues` records values destroyed inline with `delete`;
`retiredValues` records values handed to `Reclaimer::ReclaimLater` — the
source never retires a value pointer (the displaced value on the update
path of `InsertRegularNode` is deleted inline at line 463), so no
operation appends to it. Nodes unlinked by `DeleteNode` are retired to
the reclaimer as whole nodes; node retirement is not tracked further. -/

structure TableState (K V : Type) where
  power_of_2 : Nat
  size : Nat
  list : List (HNode K V)
  buckets : List Nat
  freedValues : List V
  retiredValues : List V
  deriving DecidableEq

/-- `bucket_size()` (lines 106-108): `1 << power_of_2_`. (In C++ the shift
is performed on `int` and would overflow for exponents above 31; every
reachable exponent is tiny, and the invariant below carries the bound.) -/
def bucket_size {K V : Type} (s : TableState K V) : Nat := 1 <<< s.power_of_2

/-- The constructor (lines 38-53): `power_of_2_ = 1`, `size_ = 0`, bucket 0
installed with its dummy head, which anchors the list. -/
def initTable {K V : Type} : TableState K V :=
  { power_of_2 := 1, size := 0, list := [HNode.dummy 0], buckets := [0],
    freedValues := [], retiredValues := [] }

/-- Floor base-2 logarithm by structural recursion on a fuel counter;
`log2fuel fuel b` equals `Nat.log2 b` whenever `b < 2 ^ fuel` (proved
below), and 64 units of fuel cover every 64-bit value. -/
def log2fuel : Nat → Nat → Nat
  | 0, _ => 0
  | fuel + 1, n => if n ≥ 2 then log2fuel fuel (n / 2) + 1 else 0

/-- `GetBucketParent` (lines 135-140):
`~(0x8000000000000000 >> __builtin_clzl(b)) & b` clears the most
significant set bit of `b`, i.e. bit `63 - clzl(b) = log2 b`. For
`2^l ≤ b < 2^(l+1)` clearing bit `l` of `b` yields `b % 2^l`.
`__builtin_clzl(0)` is undefined; the call site never passes 0 because
bucket 0 is installed by the constructor. -/
def GetBucketParent (b : Nat) : Nat := b % 2 ^ log2fuel 64 b

/-- `InsertDummyNode` (lines 429-448): search for the new dummy starting
from the parent bucket's head. If an equal dummy is already in the list,
adopt it and report failure (the caller then frees its own node and does
not store into the bucket slot); otherwise link the new dummy before the
first node that is `GreaterOrEquals` it. -/
def InsertDummyNode {K V : Type} [LinearOrder K] (s : TableState K V) (parent b : Nat) :
    TableState K V × Bool :=
  match splitAtDummy parent s.list with
  | none => (s, false)
  | some (pre, tail) =>
    match SearchNode (HNode.dummy b) tail with
    | (true, _, _) => (s, false)
    | (false, mid, post) =>
      ({ s with list := pre ++ HNode.dummy parent :: mid ++ HNode.dummy b :: post }, true)

/-- `InitializeBucket` (lines 345-407): recursively ensure the parent
bucket exists, lazily allocate the segment/bucket arrays (absorbed into
the `buckets` set), then, if the bucket head is still missing, insert a
new dummy starting from the parent head and store it into the slot; on a
lost race the freshly allocated dummy is discarded (single-threaded, that
branch is unreachable). The C++ recurses on the parent index directly;
since the parent index strictly decreases, recursing structurally on a
fuel counter initialized to the bucket index computes the same recursion
and never exhausts the fuel. -/
def InitializeBucketAux {K V : Type} [LinearOrder K] :
    Nat → TableState K V → Nat → TableState K V
  | 0, s, _ => s
  | fuel + 1, s, b =>
    if b = 0 then s
    else
      let p := GetBucketParent b
      let s1 := if p ∈ s.buckets then s else InitializeBucketAux fuel s p
      if b ∈ s1.buckets then s1
      else
        let r := InsertDummyNode s1 p b
        if r.2 then { r.1 with buckets := b :: r.1.buckets } else r.1

def InitializeBucket {K V : Type} [LinearOrder K] (s : TableState K V) (b : Nat) :
    TableState K V :=
  InitializeBucketAux b s b

/-- `GetBucketHeadByHash` (lines 148-155): map the hash to a bucket index
modulo the current bucket count and initialize the bucket if its head is
missing. Returns the updated table and the bucket index whose dummy head
the caller starts from. -/
def GetBucketHeadByHash {K V : Type} [LinearOrder K] (s : TableState K V) (h : Nat) :
    TableState K V × Nat :=
  let b := h % bucket_size s
  if b ∈ s.buckets then (s, b) else (InitializeBucket s b, b)

/-- `InsertRegularNode` (lines 450-487). If the search finds an equal
node, exchange its value pointer with the new node's, `delete` the
displaced value inline (line 463) and free the caller's node. Otherwise
link the new node at the split position. After a successful link the
source still contains a leftover debug block
`if (size_ == 5) { head->Dump(); new_node->Dump(); Dump(); assert(false); }`
(lines 474-479) that aborts the program; this is embedded as `none`.
Otherwise increment `size_` and, when the load factor is exceeded, bump
`power_of_2_` by one. The source condition
`(1 << power) * kLoadFactor < size` multiplies by the float constant 0.5;
for the exactly representable range at hand it is the rational condition
`2 ^ power < 2 * size`, which is used verbatim here. -/
def InsertRegularNode {K V : Type} [LinearOrder K] (s : TableState K V) (b : Nat)
    (key : K) (h : Nat) (v : V) : Option (TableState K V) :=
  match splitAtDummy b s.list with
  | none => some s
  | some (pre, tail) =>
    match SearchNode (HNode.regular key h (some v)) tail with
    | (true, mid, post) =>
      match post with
      | HNode.regular k2 h2 oldv :: rest =>
        some { s with
          list := pre ++ HNode.dummy b :: mid ++ HNode.regular k2 h2 (some v) :: rest,
          freedValues :=
            match oldv with
            | some ov => ov :: s.freedValues
            | none => s.freedValues }
      | _ => some s
    | (false, mid, post) =>
      let s1 := { s with
        list := pre ++ HNode.dummy b :: mid ++ HNode.regular key h (some v) :: post }
      if s1.size = 5 then none
      else
        let size1 := s1.size + 1
        some { s1 with
          size := size1,
          power_of_2 :=
            if 2 ^ s1.power_of_2 < 2 * size1 then s1.power_of_2 + 1 else s1.power_of_2 }

/-- `Insert` (lines 66-89): build the regular node, fetch (or initialize)
the bucket head for its hash, and run `InsertRegularNode`. The C++
function returns `void`; the embedding returns `none` exactly when the
debug `assert(false)` aborts. -/
def Insert {K V : Type} [LinearOrder K] (hashF : K → Nat) (s : TableState K V)
    (key : K) (v : V) : Option (TableState K V) :=
  let h := hashF key
  let r := GetBucketHeadByHash s h
  InsertRegularNode r.1 r.2 key h v

/-- `DeleteNode` (lines 550-581) single-threaded: search for the node; if
absent return false. Otherwise mark `cur->next` (logical delete) and swing
`prev->next` past it (physical unlink) — without contention both CAS
succeed on the first try, so the two steps amount to removing `cur` —
then decrement `size_` and retire the node to the reclaimer. -/
def DeleteNode {K V : Type} [LinearOrder K] (s : TableState K V) (b : Nat)
    (key : K) (h : Nat) : Bool × TableState K V :=
  match splitAtDummy b s.list with
  | none => (false, s)
  | some (pre, tail) =>
    match SearchNode (HNode.regular key h none) tail with
    | (false, _, _) => (false, s)
    | (true, _, []) => (false, s)
    | (true, mid, _cur :: rest) =>
      (true, { s with list := pre ++ HNode.dummy b :: mid ++ rest, size := s.size - 1 })

/-- `Delete` (lines 91-96). -/
def Delete {K V : Type} [LinearOrder K] (hashF : K → Nat) (s : TableState K V)
    (key : K) : Bool × TableState K V :=
  let h := hashF key
  let r := GetBucketHeadByHash s h
  DeleteNode r.1 r.2 key h

/-- `FindNode` (lines 163-173): search; when found, read the value stored
in the found node. -/
def FindNode {K V : Type} [LinearOrder K] (s : TableState K V) (b : Nat)
    (key : K) (h : Nat) : Bool × Option V :=
  match splitAtDummy b s.list with
  | none => (false, none)
  | some (_, tail) =>
    match SearchNode (HNode.regular key h none) tail with
    | (false, _, _) => (false, none)
    | (true, _, post) =>
      match post with
      | HNode.regular _ _ v :: _ => (true, v)
      | _ => (true, none)

/-- `Find` (lines 98-103): like every public operation it may initialize a
bucket, so it returns the updated table alongside the result. -/
def Find {K V : Type} [LinearOrder K] (hashF : K → Nat) (s : TableState K V)
    (key : K) : (Bool × Option V) × TableState K V :=
  let h := hashF key
  let r := GetBucketHeadByHash s h
  (FindNode r.1 r.2 key h, r.1)

/-- The out-parameter protocol of `Find(key, V& value)`: `value` is
assigned `*cur->value` only when the node was found; otherwise the
caller's variable keeps its previous contents. (A found node always
stores a non-null value pointer — see the invariant — so the `none`
fallback is unreachable.) -/
def FindUpd {K V : Type} [LinearOrder K] (hashF : K → Nat) (s : TableState K V)
    (key : K) (value : V) : V :=
  match Find hashF s key with
  | ((true, some v), _) => v
  | _ => value

/-- Key membership: some node of the list `Equals` the search node that
`Find`/`Delete` would build for `key`. -/
def contains {K V : Type} [LinearOrder K] (hashF : K → Nat) (s : TableState K V)
    (key : K) : Bool :=
  s.list.any (fun n => Equals n (HNode.regular key (hashF key) none))

/-- Well-formedness of a single node: a dummy's bucket index fits below
bit 63 (so its reverse hash is even), and a regular node's hash is the
hash of its key. -/
def validNode {K V : Type} (hashF : K → Nat) : HNode K V → Bool
  | .dummy b => decide (b < 2 ^ 63)
  | .regular k h _ => decide (h = hashF k)

/-- Nodes linked into the list always carry a non-null value pointer. -/
def storedValue {K V : Type} : HNode K V → Bool
  | .dummy _ => true
  | .regular _ _ v => v.isSome

/-- The sequential invariant of a table: the list is strictly sorted by
`Less`; nodes are well formed and store values; installed buckets and
dummy nodes correspond; bucket 0 is installed; the exponent fits a 64-bit
shift; and on account of the leftover debug trap at lines 474-479 the
size can never exceed 5. -/
@[reducible]
def Inv {K V : Type} [LinearOrder K] (hashF : K → Nat) (s : TableState K V) : Prop :=
  List.Pairwise (fun a b => Less a b = true) s.list
  ∧ (∀ n ∈ s.list, validNode hashF n = true)
  ∧ (∀ b ∈ s.buckets, HNode.dummy b ∈ s.list)
  ∧ (∀ n ∈ s.list, IsDummy n = true → HNode.hash n ∈ s.buckets)
  ∧ (0 : Nat) ∈ s.buckets
  ∧ s.power_of_2 ≤ 63
  ∧ s.size ≤ 5
  ∧ (∀ n ∈ s.list, storedValue n = true)

/-- Fold `Insert` over a list of key/value pairs, stopping at an abort. -/
def insertSeq {K V : Type} [LinearOrder K] (hashF : K → Nat) (s : TableState K V) :
    List (K × V) → Option (TableState K V)
  | [] => some s
  | kv :: rest =>
    match Insert hashF s kv.1 kv.2 with
    | none => none
    | some s2 => insertSeq hashF s2 rest

/-- A 64-bit hash function on `Nat` keys used by the concrete scenarios:
`std::hash` values are `size_t`, hence reduced modulo `2 ^ 64`. -/
def hashM (n : Nat) : Nat := n % 2 ^ 64

/-- The table produced by `Insert(1, 10)` on a fresh table with the `Nat`
identity hash `hashM` (checked by `decide` where used): bucket 1 has been
initialized and the regular node for key 1 linked after its dummy. -/
def exTable : TableState Nat Nat :=
  { power_of_2 := 1, size := 1,
    list := [HNode.dummy 0, HNode.dummy 1, HNode.regular 1 1 (some 10)],
    buckets := [1, 0], freedValues := [], retiredValues := [] }

/-- The table produced by a further `Insert(2, 2)` on `exTable` (checked
by `decide` where used): key 2 links after dummy 0 and the load factor
condition triggers one doubling, `power_of_2_` going from 1 to 2. -/
def exTable2 : TableState Nat Nat :=
  { power_of_2 := 2, size := 2,
    list := [HNode.dummy 0, HNode.regular 2 2 (some 2), HNode.dummy 1,
      HNode.regular 1 1 (some 10)],
    buckets := [1, 0], freedValues := [], retiredValues := [] }

lemma revBits_lt (w h : Nat) : revBits w h < 2 ^ w := by
  induction w generalizing h with
  | zero => simp [revBits]
  | succ w ih =>
    have h1 := ih (h / 2)
    have h2 : h % 2 ≤ 1 := Nat.le_of_lt_succ (Nat.mod_lt _ (by norm_num))
    have : h % 2 * 2 ^ w ≤ 2 ^ w := by
      calc h % 2 * 2 ^ w ≤ 1 * 2 ^ w := Nat.mul_le_mul_right _ h2
      _ = 2 ^ w := by ring
    simp only [revBits, pow_succ]
    omega

lemma revBits_zero (w : Nat) : revBits w 0 = 0 := by
  induction w with
  | zero => simp [revBits]
  | succ w ih => simp [revBits, ih]

lemma revBits_one_arg (h : Nat) : revBits 1 h = h % 2 := by
  simp [revBits]

lemma revBits_add (a b h : Nat) :
    revBits (a + b) h = revBits a (h % 2 ^ a) * 2 ^ b + revBits b (h / 2 ^ a) := by
  induction a generalizing h with
  | zero => simp [revBits]
  | succ a ih =>
    have e1 : a + 1 + b = (a + b) + 1 := by omega
    rw [e1]
    show revBits (a + b) (h / 2) + h % 2 * 2 ^ (a + b) = _
    rw [ih (h / 2)]
    have e2 : h % 2 ^ (a + 1) / 2 = h / 2 % 2 ^ a := by
      rw [pow_succ, Nat.mul_comm, Nat.mod_mul_right_div_self]
    have e3 : h % 2 ^ (a + 1) % 2 = h % 2 := by
      apply Nat.mod_mod_of_dvd
      exact dvd_pow_self 2 (by omega)
    have e4 : h / 2 / 2 ^ a = h / 2 ^ (a + 1) := by
      rw [Nat.div_div_eq_div_mul, pow_succ, Nat.mul_comm]
    show revBits a (h / 2 % 2 ^ a) * 2 ^ b + revBits b (h / 2 / 2 ^ a)
        + h % 2 * 2 ^ (a + b) = revBits (a + 1) (h % 2 ^ (a + 1)) * 2 ^ b
        + revBits b (h / 2 ^ (a + 1))
    show _ = (revBits a (h % 2 ^ (a + 1) / 2) + h % 2 ^ (a + 1) % 2 * 2 ^ a) * 2 ^ b
        + revBits b (h / 2 ^ (a + 1))
    rw [e2, e3, e4, pow_add]
    ring

lemma revBits_inj {w h1 h2 : Nat} (hb1 : h1 < 2 ^ w) (hb2 : h2 < 2 ^ w)
    (heq : revBits w h1 = revBits w h2) : h1 = h2 := by
  induction w generalizing h1 h2 with
  | zero => simp at hb1 hb2; omega
  | succ w ih =>
    simp only [revBits] at heq
    have b1 := revBits_lt w (h1 / 2)
    have b2 := revBits_lt w (h2 / 2)
    have hm1 : h1 % 2 ≤ 1 := by omega
    have hm2 : h2 % 2 ≤ 1 := by omega
    have hmod : h1 % 2 = h2 % 2 := by
      rcases Nat.lt_or_ge (h1 % 2) (h2 % 2) with h | h
      · exfalso; have : h1 % 2 = 0 ∧ h2 % 2 = 1 := by omega
        obtain ⟨e1, e2⟩ := this; rw [e1, e2] at heq; omega
      rcases Nat.lt_or_ge (h2 % 2) (h1 % 2) with h' | h'
      · exfalso; have : h2 % 2 = 0 ∧ h1 % 2 = 1 := by omega
        obtain ⟨e1, e2⟩ := this; rw [e1, e2] at heq; omega
      omega
    have hrec : revBits w (h1 / 2) = revBits w (h2 / 2) := by
      rw [hmod] at heq; omega
    have hd1 : h1 / 2 < 2 ^ w := by
      rw [Nat.div_lt_iff_lt_mul (by norm_num)]
      calc h1 < 2 ^ (w + 1) := hb1
      _ = 2 ^ w * 2 := by rw [pow_succ]
    have hd2 : h2 / 2 < 2 ^ w := by
      rw [Nat.div_lt_iff_lt_mul (by norm_num)]
      calc h2 < 2 ^ (w + 1) := hb2
      _ = 2 ^ w * 2 := by rw [pow_succ]
    have := ih hd1 hd2 hrec
    omega

/-- testBit of `y + c * 2 ^ m` with `y < 2 ^ m`: low bits come from `y`,
high bits from `c`. -/
lemma testBit_pow_mul_add {y : Nat} (c m : Nat) (hy : y < 2 ^ m) (i : Nat) :
    (y + c * 2 ^ m).testBit i = if i < m then y.testBit i else c.testBit (i - m) := by
  rcases Nat.lt_or_ge i m with hlt | hge
  · rw [if_pos hlt]
    rw [Nat.testBit_to_div_mod, Nat.testBit_to_div_mod]
    have e1 : 2 ^ m = 2 ^ (m - i) * 2 ^ i := by
      rw [← pow_add]; congr 1; omega
    have e2 : (y + c * 2 ^ m) / 2 ^ i = y / 2 ^ i + c * 2 ^ (m - i) := by
      rw [e1, ← Nat.mul_assoc, Nat.add_mul_div_right _ _ (Nat.pos_pow_of_pos i (by norm_num))]
    rw [e2]
    have e3 : c * 2 ^ (m - i) = c * 2 ^ (m - i - 1) * 2 := by
      rw [Nat.mul_assoc, ← pow_succ]; congr 2; omega
    rw [e3, Nat.add_mul_mod_self_right]
  · rw [if_neg (by omega)]
    rw [Nat.testBit_to_div_mod, Nat.testBit_to_div_mod]
    have e1 : (y + c * 2 ^ m) / 2 ^ i = ((y + c * 2 ^ m) / 2 ^ m) / 2 ^ (i - m) := by
      rw [Nat.div_div_eq_div_mul, ← pow_add]; congr 2; omega
    have e2 : (y + c * 2 ^ m) / 2 ^ m = c := by
      rw [Nat.add_mul_div_right _ _ (Nat.pos_pow_of_pos m (by norm_num)),
        Nat.div_eq_of_lt hy]
      omega
    rw [e1, e2]

/-- Disjoint OR is addition: if `x` has no bits below `2 ^ m` and `y` has
only bits below `2 ^ m` then `x ||| y = x + y`. -/
lemma lor_eq_add {x y m : Nat} (hx : x % 2 ^ m = 0) (hy : y < 2 ^ m) :
    x ||| y = x + y := by
  have hxc : x = x / 2 ^ m * 2 ^ m := by
    have h0 := Nat.div_add_mod x (2 ^ m)
    rw [Nat.mul_comm] at h0
    omega
  apply Nat.eq_of_testBit_eq
  intro i
  rw [Nat.testBit_lor]
  have e1 : (x + y).testBit i
      = if i < m then y.testBit i else (x / 2 ^ m).testBit (i - m) := by
    rw [Nat.add_comm, ← testBit_pow_mul_add (x / 2 ^ m) m hy i, ← hxc]
  have e2 : x.testBit i = if i < m then false else (x / 2 ^ m).testBit (i - m) := by
    conv_lhs => rw [hxc]
    have : x / 2 ^ m * 2 ^ m = 0 + x / 2 ^ m * 2 ^ m := by omega
    rw [this, testBit_pow_mul_add (x / 2 ^ m) m (Nat.pos_pow_of_pos m (by norm_num)) i]
    simp [Nat.zero_testBit]
  rw [e1, e2]
  rcases Nat.lt_or_ge i m with hlt | hge
  · simp [hlt]
  · have : ¬ i < m := by omega
    simp only [this, if_false]
    have : y.testBit i = false := by
      apply Nat.testBit_eq_false_of_lt
      calc y < 2 ^ m := hy
      _ ≤ 2 ^ i := Nat.pow_le_pow_right (by norm_num) hge
    simp [this]

lemma testBit_revBits {w i : Nat} (h : Nat) (hi : i < w) :
    (revBits w h).testBit i = h.testBit (w - 1 - i) := by
  induction w generalizing h i with
  | zero => omega
  | succ w ih =>
    show (revBits w (h / 2) + h % 2 * 2 ^ w).testBit i = _
    rw [testBit_pow_mul_add (h % 2) w (revBits_lt w (h / 2)) i]
    rcases Nat.lt_or_ge i w with hlt | hge
    · rw [if_pos hlt, ih (h / 2) hlt]
      have e : w - 1 - i + 1 = w + 1 - 1 - i := by omega
      rw [← e, ← Nat.testBit_div_two]
    · have hiw : i = w := by omega
      rw [if_neg (by omega), hiw]
      simp only [Nat.sub_self, Nat.add_sub_cancel]
      rw [Nat.testBit_to_div_mod, Nat.testBit_to_div_mod]
      have e2 : h % 2 % 2 = h % 2 := Nat.mod_mod_of_dvd h dvd_rfl
      simp [e2]

set_option maxHeartbeats 1000000 in
lemma tbl_spec : ∀ b : Nat, b < 256 → tbl b = revBits 8 b ∧ tbl b < 256 := by decide

lemma byte_lt (x : Nat) : x % 256 < 256 := Nat.mod_lt _ (by norm_num)

lemma div_pow_collapse (h a b : Nat) : h / 2 ^ a / 2 ^ b = h / 2 ^ (a + b) := by
  rw [Nat.div_div_eq_div_mul, ← pow_add]

lemma lor8 {t0 t1 t2 t3 t4 t5 t6 t7 : Nat} (b0 : t0 < 256) (b1 : t1 < 256)
    (b2 : t2 < 256) (b3 : t3 < 256) (b4 : t4 < 256) (b5 : t5 < 256)
    (b6 : t6 < 256) (b7 : t7 < 256) :
    t0 <<< 56 ||| t1 <<< 48 ||| t2 <<< 40 ||| t3 <<< 32 ||| t4 <<< 24 |||
      t5 <<< 16 ||| t6 <<< 8 ||| t7
    = t0 * 2 ^ 56 + t1 * 2 ^ 48 + t2 * 2 ^ 40 + t3 * 2 ^ 32 + t4 * 2 ^ 24
      + t5 * 2 ^ 16 + t6 * 2 ^ 8 + t7 := by
  simp only [Nat.shiftLeft_eq]
  have e1 : t0 * 2 ^ 56 ||| t1 * 2 ^ 48 = t0 * 2 ^ 56 + t1 * 2 ^ 48 :=
    lor_eq_add (m := 56) (by norm_num <;> omega) (by norm_num <;> omega)
  rw [e1]
  have e2 : t0 * 2 ^ 56 + t1 * 2 ^ 48 ||| t2 * 2 ^ 40
      = t0 * 2 ^ 56 + t1 * 2 ^ 48 + t2 * 2 ^ 40 :=
    lor_eq_add (m := 48) (by norm_num <;> omega) (by norm_num <;> omega)
  rw [e2]
  have e3 : t0 * 2 ^ 56 + t1 * 2 ^ 48 + t2 * 2 ^ 40 ||| t3 * 2 ^ 32
      = t0 * 2 ^ 56 + t1 * 2 ^ 48 + t2 * 2 ^ 40 + t3 * 2 ^ 32 :=
    lor_eq_add (m := 40) (by norm_num <;> omega) (by norm_num <;> omega)
  rw [e3]
  have e4 : t0 * 2 ^ 56 + t1 * 2 ^ 48 + t2 * 2 ^ 40 + t3 * 2 ^ 32 ||| t4 * 2 ^ 24
      = t0 * 2 ^ 56 + t1 * 2 ^ 48 + t2 * 2 ^ 40 + t3 * 2 ^ 32 + t4 * 2 ^ 24 :=
    lor_eq_add (m := 32) (by norm_num <;> omega) (by norm_num <;> omega)
  rw [e4]
  have e5 : t0 * 2 ^ 56 + t1 * 2 ^ 48 + t2 * 2 ^ 40 + t3 * 2 ^ 32 + t4 * 2 ^ 24
      ||| t5 * 2 ^ 16
      = t0 * 2 ^ 56 + t1 * 2 ^ 48 + t2 * 2 ^ 40 + t3 * 2 ^ 32 + t4 * 2 ^ 24
        + t5 * 2 ^ 16 :=
    lor_eq_add (m := 24) (by norm_num <;> omega) (by norm_num <;> omega)
  rw [e5]
  have e6 : t0 * 2 ^ 56 + t1 * 2 ^ 48 + t2 * 2 ^ 40 + t3 * 2 ^ 32 + t4 * 2 ^ 24
      + t5 * 2 ^ 16 ||| t6 * 2 ^ 8
      = t0 * 2 ^ 56 + t1 * 2 ^ 48 + t2 * 2 ^ 40 + t3 * 2 ^ 32 + t4 * 2 ^ 24
        + t5 * 2 ^ 16 + t6 * 2 ^ 8 :=
    lor_eq_add (m := 16) (by norm_num <;> omega) (by norm_num <;> omega)
  rw [e6]
  have e7 : t0 * 2 ^ 56 + t1 * 2 ^ 48 + t2 * 2 ^ 40 + t3 * 2 ^ 32 + t4 * 2 ^ 24
      + t5 * 2 ^ 16 + t6 * 2 ^ 8 ||| t7
      = t0 * 2 ^ 56 + t1 * 2 ^ 48 + t2 * 2 ^ 40 + t3 * 2 ^ 32 + t4 * 2 ^ 24
        + t5 * 2 ^ 16 + t6 * 2 ^ 8 + t7 :=
    lor_eq_add (m := 8) (by norm_num <;> omega) (by norm_num <;> omega)
  rw [e7]

lemma revBits64_bytes (h : Nat) :
    revBits 64 h =
      revBits 8 (h % 256) * 2 ^ 56 + revBits 8 (h / 2 ^ 8 % 256) * 2 ^ 48
      + revBits 8 (h / 2 ^ 16 % 256) * 2 ^ 40 + revBits 8 (h / 2 ^ 24 % 256) * 2 ^ 32
      + revBits 8 (h / 2 ^ 32 % 256) * 2 ^ 24 + revBits 8 (h / 2 ^ 40 % 256) * 2 ^ 16
      + revBits 8 (h / 2 ^ 48 % 256) * 2 ^ 8 + revBits 8 (h / 2 ^ 56) := by
  have m256 : (2 : Nat) ^ 8 = 256 := by norm_num
  have s1 : revBits 64 h = revBits 8 (h % 2 ^ 8) * 2 ^ 56 + revBits 56 (h / 2 ^ 8) :=
    revBits_add 8 56 h
  have s2 : revBits 56 (h / 2 ^ 8)
      = revBits 8 (h / 2 ^ 8 % 2 ^ 8) * 2 ^ 48 + revBits 48 (h / 2 ^ 16) := by
    have := revBits_add 8 48 (h / 2 ^ 8)
    rwa [div_pow_collapse h 8 8] at this
  have s3 : revBits 48 (h / 2 ^ 16)
      = revBits 8 (h / 2 ^ 16 % 2 ^ 8) * 2 ^ 40 + revBits 40 (h / 2 ^ 24) := by
    have := revBits_add 8 40 (h / 2 ^ 16)
    rwa [div_pow_collapse h 16 8] at this
  have s4 : revBits 40 (h / 2 ^ 24)
      = revBits 8 (h / 2 ^ 24 % 2 ^ 8) * 2 ^ 32 + revBits 32 (h / 2 ^ 32) := by
    have := revBits_add 8 32 (h / 2 ^ 24)
    rwa [div_pow_collapse h 24 8] at this
  have s5 : revBits 32 (h / 2 ^ 32)
      = revBits 8 (h / 2 ^ 32 % 2 ^ 8) * 2 ^ 24 + revBits 24 (h / 2 ^ 40) := by
    have := revBits_add 8 24 (h / 2 ^ 32)
    rwa [div_pow_collapse h 32 8] at this
  have s6 : revBits 24 (h / 2 ^ 40)
      = revBits 8 (h / 2 ^ 40 % 2 ^ 8) * 2 ^ 16 + revBits 16 (h / 2 ^ 48) := by
    have := revBits_add 8 16 (h / 2 ^ 40)
    rwa [div_pow_collapse h 40 8] at this
  have s7 : revBits 16 (h / 2 ^ 48)
      = revBits 8 (h / 2 ^ 48 % 2 ^ 8) * 2 ^ 8 + revBits 8 (h / 2 ^ 56) := by
    have := revBits_add 8 8 (h / 2 ^ 48)
    rwa [div_pow_collapse h 48 8] at this
  rw [s1, s2, s3, s4, s5, s6, s7, m256]
  ring

lemma Reverse_eq_revBits {h : Nat} (hh : h < 2 ^ 64) : Reverse h = revBits 64 h := by
  have a255 : ∀ x : Nat, x &&& 255 = x % 256 := fun x => by
    have := Nat.and_pow_two_sub_one_eq_mod x 8
    norm_num at this
    exact this
  have tb : ∀ x : Nat, tbl (x % 256) = revBits 8 (x % 256) :=
    fun x => (tbl_spec _ (byte_lt x)).1
  have tbou : ∀ x : Nat, tbl (x % 256) < 256 :=
    fun x => (tbl_spec _ (byte_lt x)).2
  have hlast : h / 2 ^ 56 % 256 = h / 2 ^ 56 := by
    apply Nat.mod_eq_of_lt
    rw [Nat.div_lt_iff_lt_mul (by positivity)]
    calc h < 2 ^ 64 := hh
    _ = 256 * 2 ^ 56 := by norm_num
  show tbl (h &&& 0xff) <<< 56 ||| tbl ((h >>> 8) &&& 0xff) <<< 48
      ||| tbl ((h >>> 16) &&& 0xff) <<< 40 ||| tbl ((h >>> 24) &&& 0xff) <<< 32
      ||| tbl ((h >>> 32) &&& 0xff) <<< 24 ||| tbl ((h >>> 40) &&& 0xff) <<< 16
      ||| tbl ((h >>> 48) &&& 0xff) <<< 8 ||| tbl ((h >>> 56) &&& 0xff) = _
  simp only [Nat.shiftRight_eq_div_pow]
  have a255' : ∀ x : Nat, x &&& 0xff = x % 256 := a255
  rw [a255' h, a255' (h / 2 ^ 8), a255' (h / 2 ^ 16), a255' (h / 2 ^ 24),
    a255' (h / 2 ^ 32), a255' (h / 2 ^ 40), a255' (h / 2 ^ 48), a255' (h / 2 ^ 56)]
  rw [lor8 (tbou h) (tbou (h / 2 ^ 8)) (tbou (h / 2 ^ 16)) (tbou (h / 2 ^ 24))
    (tbou (h / 2 ^ 32)) (tbou (h / 2 ^ 40)) (tbou (h / 2 ^ 48)) (tbou (h / 2 ^ 56))]
  rw [tb h, tb (h / 2 ^ 8), tb (h / 2 ^ 16), tb (h / 2 ^ 24), tb (h / 2 ^ 32),
    tb (h / 2 ^ 40), tb (h / 2 ^ 48), tb (h / 2 ^ 56)]
  rw [revBits64_bytes h, hlast]

lemma lor_msb {h : Nat} (hh : h < 2 ^ 64) : h ||| 2 ^ 63 = 2 ^ 63 + h % 2 ^ 63 := by
  rcases Nat.lt_or_ge h (2 ^ 63) with hl | hg
  · rw [Nat.lor_comm, lor_eq_add (Nat.mod_self _) hl, Nat.mod_eq_of_lt hl]
  · have hr : h - 2 ^ 63 < 2 ^ 63 := by norm_num at hh hg ⊢; omega
    have hsum : h = 2 ^ 63 + (h - 2 ^ 63) := by omega
    have hmod : h % 2 ^ 63 = h - 2 ^ 63 := by
      conv_lhs => rw [hsum]
      rw [Nat.add_mod_left, Nat.mod_eq_of_lt hr]
    rw [hmod]
    have hself : (2 : Nat) ^ 63 ||| 2 ^ 63 = 2 ^ 63 :=
      Nat.eq_of_testBit_eq (fun i => by rw [Nat.testBit_lor, Bool.or_self])
    conv_lhs => rw [hsum, ← lor_eq_add (Nat.mod_self (2 ^ 63)) hr]
    rw [Nat.lor_comm (2 ^ 63) (h - 2 ^ 63), Nat.lor_assoc, hself,
      Nat.lor_comm, lor_eq_add (Nat.mod_self _) hr]

lemma RegularKey_eq {h : Nat} (hh : h < 2 ^ 64) :
    RegularKey h = revBits 64 (2 ^ 63 + h % 2 ^ 63) := by
  have hm : h % 2 ^ 63 < 2 ^ 63 := Nat.mod_lt _ (by positivity)
  have hb : 2 ^ 63 + h % 2 ^ 63 < 2 ^ 64 := by norm_num at hm ⊢; omega
  show Reverse (h ||| 0x8000000000000000) = _
  rw [show (0x8000000000000000 : Nat) = 2 ^ 63 by norm_num, lor_msb hh,
    Reverse_eq_revBits hb]

lemma DummyKey_eq {b : Nat} (hb : b < 2 ^ 64) : DummyKey b = revBits 64 b :=
  Reverse_eq_revBits hb

lemma revBits64_mod_two (x : Nat) : revBits 64 x % 2 = x / 2 ^ 63 % 2 := by
  have s : revBits 64 x = revBits 63 (x % 2 ^ 63) * 2 ^ 1 + revBits 1 (x / 2 ^ 63) :=
    revBits_add 63 1 x
  rw [revBits_one_arg] at s
  norm_num at s
  omega

lemma RegularKey_odd {h : Nat} (hh : h < 2 ^ 64) : RegularKey h % 2 = 1 := by
  rw [RegularKey_eq hh, revBits64_mod_two]
  have hm : h % 2 ^ 63 < 2 ^ 63 := Nat.mod_lt _ (by positivity)
  have e : (2 ^ 63 + h % 2 ^ 63) / 2 ^ 63 = 1 := by
    rw [Nat.add_comm, Nat.add_div_right _ (by positivity), Nat.div_eq_of_lt hm]
  rw [e]

lemma DummyKey_even {b : Nat} (hb : b < 2 ^ 63) : DummyKey b % 2 = 0 := by
  have hb64 : b < 2 ^ 64 := by norm_num at hb ⊢; omega
  rw [DummyKey_eq hb64, revBits64_mod_two, Nat.div_eq_of_lt hb]

lemma DummyKey_inj {b1 b2 : Nat} (h1 : b1 < 2 ^ 64) (h2 : b2 < 2 ^ 64)
    (he : DummyKey b1 = DummyKey b2) : b1 = b2 := by
  rw [DummyKey_eq h1, DummyKey_eq h2] at he
  exact revBits_inj h1 h2 he

/-- The split-order property: the sort key of the dummy of bucket
`h mod 2^k` is strictly below the sort key of a regular node with hash
`h`, for any table exponent `k` (at most 63, the largest exponent a
64-bit `1 << power_of_2_` admits). -/
lemma DummyKey_lt_RegularKey {k b h : Nat} (hk : k ≤ 63) (hh : h < 2 ^ 64)
    (hb : b = h % 2 ^ k) : DummyKey b < RegularKey h := by
  subst hb
  have hbk : h % 2 ^ k < 2 ^ k := Nat.mod_lt _ (by positivity)
  have hk64 : (2 : Nat) ^ k ≤ 2 ^ 63 := Nat.pow_le_pow_right (by norm_num) hk
  have hb64 : h % 2 ^ k < 2 ^ 64 := by
    have : (2 : Nat) ^ 63 < 2 ^ 64 := by norm_num
    omega
  have hm63 : h % 2 ^ 63 < 2 ^ 63 := Nat.mod_lt _ (by positivity)
  have he64 : 2 ^ 63 + h % 2 ^ 63 < 2 ^ 64 := by norm_num at hm63 ⊢; omega
  rw [DummyKey_eq hb64, RegularKey_eq hh]
  have hsplit : (64 : Nat) = k + (64 - k) := by omega
  have sb : revBits 64 (h % 2 ^ k) = revBits k (h % 2 ^ k) * 2 ^ (64 - k) := by
    have s := revBits_add k (64 - k) (h % 2 ^ k)
    rw [← hsplit] at s
    rw [s, Nat.mod_eq_of_lt hbk, Nat.div_eq_of_lt hbk, revBits_zero]
    omega
  have em : (2 ^ 63 + h % 2 ^ 63) % 2 ^ k = h % 2 ^ k := by
    have e0 : (2 : Nat) ^ 63 % 2 ^ k = 0 := by
      have e1 : (2 : Nat) ^ 63 = 2 ^ (63 - k) * 2 ^ k := by rw [← pow_add]; congr 1; omega
      rw [e1]
      exact Nat.mul_mod_left _ _
    rw [Nat.add_mod, e0, Nat.zero_add, Nat.mod_mod_of_dvd h (pow_dvd_pow 2 hk),
      Nat.mod_eq_of_lt (Nat.mod_eq_of_lt hbk ▸ hbk)]
  have se : revBits 64 (2 ^ 63 + h % 2 ^ 63)
      = revBits k (h % 2 ^ k) * 2 ^ (64 - k)
        + revBits (64 - k) ((2 ^ 63 + h % 2 ^ 63) / 2 ^ k) := by
    have s := revBits_add k (64 - k) (2 ^ 63 + h % 2 ^ 63)
    rw [← hsplit] at s
    rw [s, em]
  have hdivlt : (2 ^ 63 + h % 2 ^ 63) / 2 ^ k < 2 ^ (64 - k) := by
    rw [Nat.div_lt_iff_lt_mul (by positivity), ← pow_add]
    have e1 : 64 - k + k = 64 := by omega
    rw [e1]
    exact he64
  have hdivpos : 0 < (2 ^ 63 + h % 2 ^ 63) / 2 ^ k := by
    apply Nat.div_pos ?_ (by positivity)
    omega
  have hpos : 0 < revBits (64 - k) ((2 ^ 63 + h % 2 ^ 63) / 2 ^ k) := by
    rcases Nat.eq_zero_or_pos (revBits (64 - k) ((2 ^ 63 + h % 2 ^ 63) / 2 ^ k)) with h0 | h0
    · exfalso
      have hz : revBits (64 - k) ((2 ^ 63 + h % 2 ^ 63) / 2 ^ k)
          = revBits (64 - k) 0 := by rw [h0, revBits_zero]
      have := revBits_inj hdivlt (by positivity) hz
      omega
    · exact h0
  rw [sb, se]
  omega

lemma log2fuel_eq : ∀ fuel b : Nat, b < 2 ^ fuel → log2fuel fuel b = Nat.log2 b := by
  intro fuel
  induction fuel with
  | zero =>
    intro b hb
    have : b = 0 := by simpa using hb
    subst this
    show 0 = Nat.log2 0
    rw [Nat.log2]
    norm_num
  | succ fuel ih =>
    intro b hb
    show (if b ≥ 2 then log2fuel fuel (b / 2) + 1 else 0) = Nat.log2 b
    rw [Nat.log2]
    by_cases h2 : b ≥ 2
    · rw [if_pos h2, if_pos h2, ih]
      rw [Nat.div_lt_iff_lt_mul (by norm_num)]
      calc b < 2 ^ (fuel + 1) := hb
      _ = 2 ^ fuel * 2 := by rw [pow_succ]
    · rw [if_neg h2, if_neg h2]

lemma GetBucketParent_eq {b : Nat} (hb : b < 2 ^ 64) :
    GetBucketParent b = b % 2 ^ Nat.log2 b := by
  show b % 2 ^ log2fuel 64 b = b % 2 ^ Nat.log2 b
  rw [log2fuel_eq 64 b hb]

lemma two_pow_log2fuel_le : ∀ fuel b : Nat, b ≠ 0 → 2 ^ log2fuel fuel b ≤ b := by
  intro fuel
  induction fuel with
  | zero =>
    intro b hb
    show 2 ^ 0 ≤ b
    omega
  | succ fuel ih =>
    intro b hb
    show (2 : Nat) ^ (if b ≥ 2 then log2fuel fuel (b / 2) + 1 else 0) ≤ b
    by_cases h2 : b ≥ 2
    · rw [if_pos h2, pow_succ]
      have := ih (b / 2) (by omega)
      omega
    · rw [if_neg h2]
      omega

lemma GetBucketParent_lt {b : Nat} (hb : b ≠ 0) : GetBucketParent b < b := by
  have h1 := two_pow_log2fuel_le 64 b hb
  have h2 : 0 < 2 ^ log2fuel 64 b := Nat.pos_pow_of_pos _ (by norm_num)
  calc GetBucketParent b < 2 ^ log2fuel 64 b := Nat.mod_lt _ h2
  _ ≤ b := h1

/-- Clearing the most significant set bit lowers the reversed sort key:
the dummy key of a bucket's parent is strictly below the bucket's own. -/
lemma DummyKey_parent_lt {b : Nat} (hb0 : b ≠ 0) (hb : b < 2 ^ 63) :
    DummyKey (GetBucketParent b) < DummyKey b := by
  have h1 : 2 ^ Nat.log2 b ≤ b := Nat.log2_self_le hb0
  have h2 : b < 2 ^ (Nat.log2 b + 1) := Nat.lt_log2_self
  have hl62 : Nat.log2 b ≤ 62 := by
    by_contra hc
    push_neg at hc
    have : (2 : Nat) ^ 63 ≤ 2 ^ Nat.log2 b := Nat.pow_le_pow_right (by norm_num) (by omega)
    omega
  have hpe : GetBucketParent b = b % 2 ^ Nat.log2 b :=
    GetBucketParent_eq (by norm_num at hb ⊢; omega)
  have hplt : GetBucketParent b < 2 ^ Nat.log2 b := by
    rw [hpe]; exact Nat.mod_lt _ (by positivity)
  have hp1 : GetBucketParent b < 2 ^ (Nat.log2 b + 1) := by
    have : (2 : Nat) ^ Nat.log2 b < 2 ^ (Nat.log2 b + 1) := by
      apply Nat.pow_lt_pow_right (by norm_num); omega
    omega
  have hdiv : b / 2 ^ Nat.log2 b = 1 := by
    apply Nat.div_eq_of_lt_le
    · omega
    · have : (1 + 1) * 2 ^ Nat.log2 b = 2 ^ (Nat.log2 b + 1) := by rw [pow_succ]; ring
      omega
  have hbp : b % 2 ^ Nat.log2 b = b - 2 ^ Nat.log2 b := by
    have := Nat.div_add_mod b (2 ^ Nat.log2 b)
    rw [hdiv] at this
    omega
  have hb64 : b < 2 ^ 64 := by norm_num at hb ⊢; omega
  have hp64 : GetBucketParent b < 2 ^ 64 := by
    have : (2 : Nat) ^ Nat.log2 b ≤ 2 ^ 64 := Nat.pow_le_pow_right (by norm_num) (by omega)
    omega
  have split1 : ∀ x : Nat, x < 2 ^ (Nat.log2 b + 1)
      → revBits 64 x = revBits (Nat.log2 b + 1) x * 2 ^ (63 - Nat.log2 b) := by
    intro x hx
    have hsp : (64 : Nat) = (Nat.log2 b + 1) + (63 - Nat.log2 b) := by omega
    have s := revBits_add (Nat.log2 b + 1) (63 - Nat.log2 b) x
    rw [← hsp] at s
    rw [s, Nat.mod_eq_of_lt hx, Nat.div_eq_of_lt hx, revBits_zero]
    omega
  have split2 : ∀ x : Nat, revBits (Nat.log2 b + 1) x
      = revBits (Nat.log2 b) (x % 2 ^ Nat.log2 b) * 2 + x / 2 ^ Nat.log2 b % 2 := by
    intro x
    have s := revBits_add (Nat.log2 b) 1 x
    rw [revBits_one_arg] at s
    norm_num at s
    omega
  rw [DummyKey_eq hp64, DummyKey_eq hb64, split1 b h2, split1 _ hp1, split2, split2]
  have ep1 : GetBucketParent b % 2 ^ Nat.log2 b = GetBucketParent b :=
    Nat.mod_eq_of_lt hplt
  have ep2 : GetBucketParent b / 2 ^ Nat.log2 b = 0 := Nat.div_eq_of_lt hplt
  have eb1 : b % 2 ^ Nat.log2 b = GetBucketParent b := by rw [hpe]
  rw [ep1, ep2, eb1, hdiv]
  have hc : 0 < 2 ^ (63 - Nat.log2 b) := by positivity
  have hlt : revBits (Nat.log2 b) (GetBucketParent b) * 2 + 0 % 2
      < revBits (Nat.log2 b) (GetBucketParent b) * 2 + 1 % 2 := by omega
  exact Nat.mul_lt_mul_of_lt_of_le hlt (le_refl _) hc

section NodeOrder

variable {K V : Type} [LinearOrder K]

lemma Less_iff (n m : HNode K V) :
    Less n m = true ↔
      n.reverse_hash < m.reverse_hash ∨
      (n.reverse_hash = m.reverse_hash ∧
        ∃ k1 h1 v1 k2 h2 v2, n = HNode.regular k1 h1 v1 ∧ m = HNode.regular k2 h2 v2
          ∧ k1 < k2) := by
  constructor
  · intro hl
    unfold Less at hl
    split at hl
    · left; exact of_decide_eq_true hl
    · rename_i hrh
      push_neg at hrh
      right
      refine ⟨hrh, ?_⟩
      cases n with
      | dummy b1 => simp at hl
      | regular k1 h1 v1 =>
        cases m with
        | dummy b2 => simp at hl
        | regular k2 h2 v2 =>
          exact ⟨k1, h1, v1, k2, h2, v2, rfl, rfl, of_decide_eq_true hl⟩
  · rintro (hlt | ⟨heq, k1, h1, v1, k2, h2, v2, rfl, rfl, hk⟩)
    · unfold Less
      split
      · exact decide_eq_true hlt
      · rename_i hrh
        push_neg at hrh
        omega
    · unfold Less
      split
      · rename_i hrh; exact absurd heq hrh
      · exact decide_eq_true hk

lemma Equals_iff (n m : HNode K V) :
    Equals n m = true ↔ Less n m = false ∧ Less m n = false := by
  simp [Equals]

lemma Equals_symm {n m : HNode K V} : Equals n m = Equals m n := by
  simp [Equals, Bool.and_comm]

lemma Equals_symm_true {n m : HNode K V} (he : Equals n m = true) :
    Equals m n = true := by
  rw [Equals_symm]; exact he

lemma Equals_rh {n m : HNode K V} (he : Equals n m = true) :
    n.reverse_hash = m.reverse_hash := by
  rw [Equals_iff] at he
  obtain ⟨l1, l2⟩ := he
  by_contra hne
  rcases Nat.lt_or_ge n.reverse_hash m.reverse_hash with h | h
  · have : Less n m = true := (Less_iff n m).mpr (Or.inl h)
    rw [this] at l1; cases l1
  · have hlt : m.reverse_hash < n.reverse_hash := by omega
    have : Less m n = true := (Less_iff m n).mpr (Or.inl hlt)
    rw [this] at l2; cases l2

lemma Less_of_not_ge {c sn : HNode K V} (h1 : Less c sn = false)
    (h2 : Equals c sn = false) : Less sn c = true := by
  cases hl : Less sn c
  · exfalso
    have : Equals c sn = true := (Equals_iff c sn).mpr ⟨h1, hl⟩
    rw [this] at h2; cases h2
  · rfl

lemma Less_trans {a b c : HNode K V} (h1 : Less a b = true) (h2 : Less b c = true) :
    Less a c = true := by
  rw [Less_iff] at h1 h2 ⊢
  rcases h1 with h1 | ⟨e1, k1, hh1, v1, k2, hh2, v2, ha, hb, hk1⟩
  · rcases h2 with h2 | ⟨e2, _⟩
    · left; omega
    · left; omega
  · rcases h2 with h2 | ⟨e2, k2', hh2', v2', k3, hh3, v3, hb', hc, hk2⟩
    · left; omega
    · right
      refine ⟨by omega, ?_⟩
      subst ha; subst hc
      rw [hb'] at hb
      injection hb with ek eh ev
      exact ⟨k1, hh1, v1, k3, hh3, v3, rfl, rfl, by rw [← ek] at hk1; exact lt_trans hk1 hk2⟩

lemma Equals_regular_keys {k1 k2 : K} {h1 h2 : Nat} {v1 v2 : Option V}
    (he : Equals (HNode.regular k1 h1 v1) (HNode.regular k2 h2 v2) = true) :
    k1 = k2 ∧ RegularKey h1 = RegularKey h2 := by
  have hrh := Equals_rh he
  simp only [HNode.reverse_hash] at hrh
  rw [Equals_iff] at he
  obtain ⟨l1, l2⟩ := he
  refine ⟨?_, hrh⟩
  have n1 : ¬ k1 < k2 := by
    intro hk
    have : Less (HNode.regular k1 h1 v1) (HNode.regular k2 h2 v2) = true :=
      (Less_iff _ _).mpr (Or.inr ⟨by simp [HNode.reverse_hash, hrh],
        k1, h1, v1, k2, h2, v2, rfl, rfl, hk⟩)
    rw [this] at l1; cases l1
  have n2 : ¬ k2 < k1 := by
    intro hk
    have : Less (HNode.regular k2 h2 v2) (HNode.regular k1 h1 v1) = true :=
      (Less_iff _ _).mpr (Or.inr ⟨by simp [HNode.reverse_hash, hrh],
        k2, h2, v2, k1, h1, v1, rfl, rfl, hk⟩)
    rw [this] at l2; cases l2
  exact le_antisymm (not_lt.mp n2) (not_lt.mp n1)

lemma Equals_search {hashF : K → Nat} (Hh : ∀ k0 : K, hashF k0 < 2 ^ 64)
    {n : HNode K V} {k : K} {vv : Option V}
    (hv : validNode hashF n = true)
    (he : Equals n (HNode.regular k (hashF k) vv) = true) :
    ∃ ov, n = HNode.regular k (hashF k) ov := by
  have hrh := Equals_rh he
  cases n with
  | dummy b =>
    exfalso
    simp only [validNode, decide_eq_true_eq] at hv
    simp only [HNode.reverse_hash] at hrh
    have e1 := DummyKey_even hv
    have e2 := RegularKey_odd (Hh k)
    omega
  | regular k1 hh1 v1 =>
    simp only [validNode, decide_eq_true_eq] at hv
    obtain ⟨hk, _⟩ := Equals_regular_keys he
    subst hk
    exact ⟨v1, by rw [hv]⟩

lemma Equals_self_search {k : K} {h : Nat} {ov vv : Option V} :
    Equals (HNode.regular k h ov : HNode K V) (HNode.regular k h vv) = true := by
  rw [Equals_iff]
  constructor <;>
  · cases hl : Less (HNode.regular k h ov : HNode K V) (HNode.regular k h vv) <;>
      cases hl2 : Less (HNode.regular k h vv : HNode K V) (HNode.regular k h ov) <;>
      first
      | rfl
      | (exfalso
         first
         | (rcases (Less_iff (HNode.regular k h ov : HNode K V)
              (HNode.regular k h vv)).mp (by assumption)
              with h1 | ⟨_, k1, hh1, v1', k2, hh2, v2', e1, e2, hk⟩
            · simp [HNode.reverse_hash] at h1
            · injection e1 with a1 a2 a3; injection e2 with b1 b2 b3
              subst a1; subst b1; exact absurd hk (lt_irrefl _))
         | (rcases (Less_iff (HNode.regular k h vv : HNode K V)
              (HNode.regular k h ov)).mp (by assumption)
              with h1 | ⟨_, k1, hh1, v1', k2, hh2, v2', e1, e2, hk⟩
            · simp [HNode.reverse_hash] at h1
            · injection e1 with a1 a2 a3; injection e2 with b1 b2 b3
              subst a1; subst b1; exact absurd hk (lt_irrefl _)))
  
lemma Less_of_Less_of_Equals {hashF : K → Nat} (Hh : ∀ k0 : K, hashF k0 < 2 ^ 64)
    {a b c : HNode K V}
    (hvb : validNode hashF b = true) (hvc : validNode hashF c = true)
    (h1 : Less a b = true) (h2 : Equals b c = true) : Less a c = true := by
  have hrh := Equals_rh h2
  rw [Less_iff] at h1 ⊢
  rcases h1 with h1 | ⟨e1, k1, hh1, v1, k2, hh2, v2, ha, hb, hk⟩
  · left; omega
  · subst ha
    subst hb
    cases c with
    | dummy bc =>
      exfalso
      simp only [validNode, decide_eq_true_eq] at hvb hvc
      simp only [HNode.reverse_hash] at hrh
      have e2 := DummyKey_even hvc
      have e3 := RegularKey_odd (hvb ▸ Hh k2)
      omega
    | regular k3 hh3 v3 =>
      obtain ⟨hkk, _⟩ := Equals_regular_keys h2
      right
      refine ⟨by omega, k1, hh1, v1, k3, hh3, v3, rfl, rfl, by rw [← hkk]; exact hk⟩

lemma Less_of_Equals_of_Less {hashF : K → Nat} (Hh : ∀ k0 : K, hashF k0 < 2 ^ 64)
    {a b c : HNode K V}
    (hva : validNode hashF a = true) (hvb : validNode hashF b = true)
    (h1 : Equals a b = true) (h2 : Less b c = true) : Less a c = true := by
  have hrh := Equals_rh h1
  rw [Less_iff] at h2 ⊢
  rcases h2 with h2 | ⟨e1, k1, hh1, v1, k2, hh2, v2, hb, hc, hk⟩
  · left; omega
  · subst hb
    subst hc
    cases a with
    | dummy ba =>
      exfalso
      simp only [validNode, decide_eq_true_eq] at hva hvb
      simp only [HNode.reverse_hash] at hrh
      have e2 := DummyKey_even hva
      have e3 := RegularKey_odd (hvb ▸ Hh k1)
      omega
    | regular k0 hh0 v0 =>
      obtain ⟨hkk, _⟩ := Equals_regular_keys h1
      right
      refine ⟨by omega, k0, hh0, v0, k2, hh2, v2, rfl, rfl, by rw [hkk]; exact hk⟩

end NodeOrder

section SearchLemmas

variable {K V : Type} [LinearOrder K]

lemma SearchNode_append {sn : HNode K V} {l : List (HNode K V)}
    {f : Bool} {pre post : List (HNode K V)}
    (h : SearchNode sn l = (f, pre, post)) :
    l = pre ++ post ∧ ∀ n ∈ pre, Less n sn = true := by
  induction l generalizing f pre post with
  | nil =>
    simp only [SearchNode] at h
    injection h with h1 h2
    injection h2 with h2 h3
    subst h2; subst h3
    simp
  | cons cur rest ih =>
    simp only [SearchNode] at h
    by_cases hge : GreaterOrEquals cur sn = true
    · rw [if_pos hge] at h
      injection h with h1 h2
      injection h2 with h2 h3
      subst h2; subst h3
      simp
    · rw [if_neg hge] at h
      injection h with h1 h2
      injection h2 with h2 h3
      obtain ⟨e1, e2⟩ := ih (rfl : SearchNode sn rest = (_, _, _))
      subst h2; subst h3
      constructor
      · simp only [List.cons_append]
        rw [← e1]
      · intro n hn
        rcases List.mem_cons.mp hn with hn | hn
        · subst hn
          simp only [GreaterOrEquals, Bool.not_eq_true', Bool.not_eq_true] at hge
          simpa using hge
        · exact e2 n hn

lemma SearchNode_post_nil {sn : HNode K V} {l : List (HNode K V)}
    {f : Bool} {pre : List (HNode K V)}
    (h : SearchNode sn l = (f, pre, [])) : f = false := by
  induction l generalizing f pre with
  | nil =>
    simp only [SearchNode] at h
    injection h with h1 h2
    exact h1.symm
  | cons cur rest ih =>
    simp only [SearchNode] at h
    by_cases hge : GreaterOrEquals cur sn = true
    · rw [if_pos hge] at h
      injection h with h1 h2
      injection h2 with h2 h3
      cases h3
    · rw [if_neg hge] at h
      injection h with h1 h2
      injection h2 with h2 h3
      exact ih (by rw [← h1, ← h3])

lemma SearchNode_post_cons {sn : HNode K V} {l : List (HNode K V)}
    {f : Bool} {pre rest2 : List (HNode K V)} {c : HNode K V}
    (h : SearchNode sn l = (f, pre, c :: rest2)) :
    Less c sn = false ∧ f = Equals c sn := by
  induction l generalizing f pre c rest2 with
  | nil =>
    simp only [SearchNode] at h
    injection h with h1 h2
    injection h2 with h2 h3
    cases h3
  | cons cur rest ih =>
    simp only [SearchNode] at h
    by_cases hge : GreaterOrEquals cur sn = true
    · rw [if_pos hge] at h
      injection h with h1 h2
      injection h2 with h2 h3
      injection h3 with h3 h4
      subst h3
      simp only [GreaterOrEquals, Bool.not_eq_true'] at hge
      exact ⟨hge, h1.symm⟩
    · rw [if_neg hge] at h
      injection h with h1 h2
      injection h2 with h2 h3
      exact ih (by rw [← h1, ← h3])

/-- If a node equal to the searched one is in a sorted list of valid
nodes, the traversal stops exactly at that node and reports it found. -/
lemma SearchNode_mem {hashF : K → Nat} (Hh : ∀ k0 : K, hashF k0 < 2 ^ 64)
    {sn : HNode K V} {l : List (HNode K V)}
    (hpair : List.Pairwise (fun a b => Less a b = true) l)
    (hval : ∀ n ∈ l, validNode hashF n = true)
    (hvsn : validNode hashF sn = true)
    {n : HNode K V} (hn : n ∈ l) (he : Equals n sn = true) :
    ∃ mid rest2, SearchNode sn l = (true, mid, n :: rest2) := by
  induction l with
  | nil => cases hn
  | cons cur rest ih =>
    rw [List.pairwise_cons] at hpair
    obtain ⟨hcur, hrest⟩ := hpair
    by_cases hge : GreaterOrEquals cur sn = true
    · have hcn : n = cur := by
        rcases List.mem_cons.mp hn with hh | hh
        · exact hh
        · exfalso
          have hlcn : Less cur n = true := hcur n hh
          have hlt : Less cur sn = true :=
            Less_of_Less_of_Equals Hh (hval n (List.mem_cons_of_mem _ hh)) hvsn hlcn he
          simp only [GreaterOrEquals, Bool.not_eq_true'] at hge
          rw [hlt] at hge; cases hge
      subst hcn
      refine ⟨[], rest, ?_⟩
      simp only [SearchNode, if_pos hge, he]
    · have hnr : n ∈ rest := by
        rcases List.mem_cons.mp hn with hh | hh
        · exfalso
          subst hh
          rw [Equals_iff] at he
          simp only [GreaterOrEquals, Bool.not_eq_true] at hge
          rw [he.1] at hge
          simp at hge
        · exact hh
      obtain ⟨mid, r2, hr⟩ := ih hrest (fun m hm => hval m (List.mem_cons_of_mem _ hm)) hnr
      refine ⟨cur :: mid, r2, ?_⟩
      simp only [SearchNode, if_neg hge, hr]

/-- A found search exhibits an equal node in the list. -/
lemma SearchNode_found {sn : HNode K V} {l : List (HNode K V)}
    (h : (SearchNode sn l).1 = true) :
    ∃ n ∈ l, Equals n sn = true := by
  rcases hr : SearchNode sn l with ⟨f, pre, post⟩
  rw [hr] at h
  simp only at h
  subst h
  cases post with
  | nil => exact absurd (SearchNode_post_nil hr) (by simp)
  | cons c rest2 =>
    obtain ⟨h1, h2⟩ := SearchNode_post_cons hr
    obtain ⟨e1, _⟩ := SearchNode_append hr
    exact ⟨c, by rw [e1]; simp, h2.symm⟩

lemma splitAtDummy_eq {b : Nat} {l pre tail : List (HNode K V)}
    (h : splitAtDummy b l = some (pre, tail)) :
    l = pre ++ HNode.dummy b :: tail := by
  induction l generalizing pre tail with
  | nil => simp [splitAtDummy] at h
  | cons n rest ih =>
    simp only [splitAtDummy] at h
    by_cases hd : (IsDummy n && decide (n.hash = b)) = true
    · rw [if_pos hd] at h
      injection h with h1
      injection h1 with h1 h2
      subst h1; subst h2
      have : n = HNode.dummy b := by
        cases n with
        | dummy b2 =>
          simp only [IsDummy, HNode.hash, Bool.true_and, decide_eq_true_eq] at hd
          rw [hd]
        | regular k2 h2 v2 => simp [IsDummy] at hd
      rw [this]
      simp
    · rw [if_neg hd] at h
      rcases hs : splitAtDummy b rest with hnone | ⟨pre2, tail2⟩
      · rw [hs] at h; cases h
      · rw [hs] at h
        injection h with h1
        injection h1 with h1 h2
        subst h1; subst h2
        rw [ih hs]
        simp

lemma splitAtDummy_of_mem {b : Nat} {l : List (HNode K V)} (h : HNode.dummy b ∈ l) :
    ∃ pre tail, splitAtDummy b l = some (pre, tail) := by
  induction l with
  | nil => cases h
  | cons n rest ih =>
    by_cases hd : (IsDummy n && decide (n.hash = b)) = true
    · exact ⟨[], rest, by simp only [splitAtDummy, if_pos hd]⟩
    · have hn : HNode.dummy b ∈ rest := by
        rcases List.mem_cons.mp h with hh | hh
        · exfalso
          apply hd
          rw [← hh]
          simp [IsDummy, HNode.hash]
        · exact hh
      obtain ⟨pre, tail, hs⟩ := ih hn
      exact ⟨n :: pre, tail, by simp only [splitAtDummy, if_neg hd, hs]⟩

end SearchLemmas

section OrderMore

variable {K V : Type} [LinearOrder K]

lemma Less_irrefl (n : HNode K V) : Less n n = false := by
  cases hl : Less n n
  · rfl
  · exfalso
    rcases (Less_iff n n).mp hl with h1 | ⟨_, k1, h1, v1, k2, h2, v2, e1, e2, hk⟩
    · omega
    · rw [e1] at e2
      injection e2 with a1 a2 a3
      subst a1
      exact absurd hk (lt_irrefl _)

lemma Equals_dummy {hashF : K → Nat} (Hh : ∀ k0 : K, hashF k0 < 2 ^ 64)
    {n : HNode K V} {b : Nat} (hv : validNode hashF n = true)
    (hb : b < 2 ^ 63) (he : Equals n (HNode.dummy b) = true) : n = HNode.dummy b := by
  have hrh := Equals_rh he
  cases n with
  | regular k h v =>
    exfalso
    simp only [validNode, decide_eq_true_eq] at hv
    simp only [HNode.reverse_hash] at hrh
    have e1 := RegularKey_odd (hv ▸ Hh k)
    have e2 := DummyKey_even hb
    omega
  | dummy b2 =>
    simp only [validNode, decide_eq_true_eq] at hv
    simp only [HNode.reverse_hash] at hrh
    have hb2 : b2 < 2 ^ 64 := by norm_num at hv ⊢; omega
    have hb64 : b < 2 ^ 64 := by norm_num at hb ⊢; omega
    rw [DummyKey_inj hb2 hb64 hrh]

lemma Less_dummy_regular {b h p : Nat} (hp : p ≤ 63) (hh : h < 2 ^ 64)
    (hb : b = h % 2 ^ p) {k : K} {vv : Option V} :
    Less (HNode.dummy b : HNode K V) (HNode.regular k h vv) = true := by
  apply (Less_iff _ _).mpr
  left
  simp only [HNode.reverse_hash]
  exact DummyKey_lt_RegularKey hp hh hb

lemma Less_dummy_dummy {b1 b2 : Nat} (hlt : DummyKey b1 < DummyKey b2) :
    Less (HNode.dummy b1 : HNode K V) (HNode.dummy b2) = true := by
  apply (Less_iff _ _).mpr
  left
  simpa [HNode.reverse_hash] using hlt

lemma Less_value_right {n : HNode K V} {k : K} {h : Nat} {a b : Option V} :
    Less n (HNode.regular k h a) = Less n (HNode.regular k h b) := by
  cases n <;> rfl

lemma Less_value_left {n : HNode K V} {k : K} {h : Nat} {a b : Option V} :
    Less (HNode.regular k h a) n = Less (HNode.regular k h b) n := by
  cases n <;> rfl

lemma Equals_value_right {n : HNode K V} {k : K} {h : Nat} {a b : Option V} :
    Equals n (HNode.regular k h a) = Equals n (HNode.regular k h b) := by
  unfold Equals
  rw [Less_value_right (a := a) (b := b), Less_value_left (a := a) (b := b)]

lemma GreaterOrEquals_value_right {n : HNode K V} {k : K} {h : Nat} {a b : Option V} :
    GreaterOrEquals n (HNode.regular k h a) = GreaterOrEquals n (HNode.regular k h b) := by
  unfold GreaterOrEquals
  rw [Less_value_right (a := a) (b := b)]

lemma SearchNode_value {k : K} {h : Nat} {a b : Option V} (l : List (HNode K V)) :
    SearchNode (HNode.regular k h a) l = SearchNode (HNode.regular k h b) l := by
  induction l with
  | nil => rfl
  | cons cur rest ih =>
    simp only [SearchNode]
    rw [GreaterOrEquals_value_right (a := a) (b := b),
      Equals_value_right (a := a) (b := b), ih]

lemma contains_iff {hashF : K → Nat} {s : TableState K V} {k : K} :
    contains hashF s k = true
      ↔ ∃ n ∈ s.list, Equals n (HNode.regular k (hashF k) none) = true := by
  simp [contains, List.any_eq_true]

/-- Strictly sorted insertion surgery: linking the searched node at the
`SearchNode` split keeps the list strictly sorted. -/
lemma pairwise_insert_split {pre tail mid post : List (HNode K V)} {d sn : HNode K V}
    (hpair : List.Pairwise (fun a b => Less a b = true) (pre ++ d :: tail))
    (hs : SearchNode sn tail = (false, mid, post))
    (hd : Less d sn = true) :
    List.Pairwise (fun a b => Less a b = true) (pre ++ d :: mid ++ sn :: post) := by
  rw [List.pairwise_append] at hpair
  obtain ⟨hpre, hdt, hcross⟩ := hpair
  rw [List.pairwise_cons] at hdt
  obtain ⟨hdall, htail⟩ := hdt
  obtain ⟨htsplit, hmidlt⟩ := SearchNode_append hs
  subst htsplit
  rw [List.pairwise_append] at htail
  obtain ⟨hmid, hpost, hmp⟩ := htail
  have hsnpost : ∀ y ∈ post, Less sn y = true := by
    cases post with
    | nil => intro y hy; cases hy
    | cons c rest2 =>
      obtain ⟨hc1, hc2⟩ := SearchNode_post_cons hs
      have hsnc : Less sn c = true := Less_of_not_ge hc1 hc2.symm
      intro y hy
      rcases List.mem_cons.mp hy with hy | hy
      · subst hy; exact hsnc
      · rw [List.pairwise_cons] at hpost
        exact Less_trans hsnc (hpost.1 y hy)
  have goalshape : pre ++ d :: mid ++ sn :: post
      = pre ++ d :: (mid ++ sn :: post) := by simp
  rw [goalshape, List.pairwise_append]
  refine ⟨hpre, ?_, ?_⟩
  · rw [List.pairwise_cons]
    constructor
    · intro y hy
      rcases List.mem_append.mp hy with hy | hy
      · exact hdall y (List.mem_append.mpr (Or.inl hy))
      · rcases List.mem_cons.mp hy with hy | hy
        · subst hy; exact hd
        · exact hdall y (List.mem_append.mpr (Or.inr hy))
    · rw [List.pairwise_append]
      refine ⟨hmid, ?_, ?_⟩
      · rw [List.pairwise_cons]
        exact ⟨hsnpost, hpost⟩
      · intro a ha b hb
        rcases List.mem_cons.mp hb with hb | hb
        · subst hb; exact hmidlt a ha
        · exact hmp a ha b hb
  · intro a ha b hb
    rcases List.mem_cons.mp hb with hb | hb
    · rw [hb]; exact hcross a ha d (List.mem_cons_self _ _)
    · rcases List.mem_append.mp hb with hb | hb
      · exact hcross a ha b (List.mem_cons_of_mem _ (List.mem_append.mpr (Or.inl hb)))
      · rcases List.mem_cons.mp hb with hb | hb
        · rw [hb]
          exact Less_trans (hcross a ha d (List.mem_cons_self _ _)) hd
        · exact hcross a ha b (List.mem_cons_of_mem _ (List.mem_append.mpr (Or.inr hb)))

/-- In a sorted list split at a dummy that sorts below the searched node,
any node equal to the searched one lies in the suffix after the dummy. -/
lemma equals_mem_tail {hashF : K → Nat} (Hh : ∀ k0 : K, hashF k0 < 2 ^ 64)
    {pre tail : List (HNode K V)} {d sn n : HNode K V}
    (hpair : List.Pairwise (fun a b => Less a b = true) (pre ++ d :: tail))
    (hval : ∀ m ∈ pre ++ d :: tail, validNode hashF m = true)
    (hvsn : validNode hashF sn = true)
    (hd : Less d sn = true)
    (hn : n ∈ pre ++ d :: tail) (he : Equals n sn = true) : n ∈ tail := by
  rw [List.pairwise_append] at hpair
  obtain ⟨hpre, hdt, hcross⟩ := hpair
  rcases List.mem_append.mp hn with hnp | hnc
  · exfalso
    have hnd : Less n d = true := hcross n hnp d (List.mem_cons_self _ _)
    have hsnd : Less sn d = true :=
      Less_of_Equals_of_Less Hh hvsn (hval n hn) (Equals_symm_true he) hnd
    have : Less sn sn = true := Less_trans hsnd hd
    rw [Less_irrefl] at this; cases this
  · rcases List.mem_cons.mp hnc with hnd | hnt
    · exfalso
      subst hnd
      rw [Equals_iff] at he
      rw [he.1] at hd; cases hd
    · exact hnt

end OrderMore

section BucketLemmas

variable {K V : Type} [LinearOrder K]

lemma InsertDummyNode_spec {hashF : K → Nat} (Hh : ∀ k0 : K, hashF k0 < 2 ^ 64)
    {s : TableState K V} {p b : Nat}
    (hpair : List.Pairwise (fun a b2 => Less a b2 = true) s.list)
    (hval : ∀ n ∈ s.list, validNode hashF n = true)
    (hp : HNode.dummy p ∈ s.list)
    (hb63 : b < 2 ^ 63)
    (hnot : (HNode.dummy b : HNode K V) ∉ s.list)
    (hlt : Less (HNode.dummy p : HNode K V) (HNode.dummy b) = true) :
    ∃ s2, InsertDummyNode s p b = (s2, true)
      ∧ s2.power_of_2 = s.power_of_2 ∧ s2.size = s.size
      ∧ s2.buckets = s.buckets ∧ s2.freedValues = s.freedValues
      ∧ s2.retiredValues = s.retiredValues
      ∧ (∀ n : HNode K V, n ∈ s2.list ↔ n ∈ s.list ∨ n = HNode.dummy b)
      ∧ List.Pairwise (fun a b2 => Less a b2 = true) s2.list := by
  obtain ⟨pre, tail, hsp⟩ := splitAtDummy_of_mem hp
  have hdecomp := splitAtDummy_eq hsp
  rcases hsr : SearchNode (HNode.dummy b : HNode K V) tail with ⟨f, mid, post⟩
  have hf : f = false := by
    cases hf1 : f
    · rfl
    · exfalso
      rw [hf1] at hsr
      obtain ⟨n, hn, he⟩ := SearchNode_found (show (SearchNode (HNode.dummy b) tail).1 = true by rw [hsr])
      have hnmem : n ∈ s.list := by rw [hdecomp]; simp [hn]
      have hnv : validNode hashF n = true := hval n hnmem
      have hne := Equals_dummy Hh hnv hb63 he
      rw [hne] at hnmem
      exact hnot hnmem
  subst hf
  refine ⟨{ s with list := pre ++ HNode.dummy p :: mid ++ HNode.dummy b :: post },
    ?_, rfl, rfl, rfl, rfl, rfl, ?_, ?_⟩
  · simp only [InsertDummyNode, hsp, hsr]
  · intro n
    have htsplit := (SearchNode_append hsr).1
    rw [hdecomp, htsplit]
    simp only [List.mem_append, List.mem_cons]
    tauto
  · rw [hdecomp] at hpair
    exact pairwise_insert_split hpair hsr hlt

lemma Inv_parts {hashF : K → Nat} {s : TableState K V} (hInv : Inv hashF s) :
    List.Pairwise (fun a b => Less a b = true) s.list
    ∧ (∀ n ∈ s.list, validNode hashF n = true)
    ∧ (∀ b ∈ s.buckets, HNode.dummy b ∈ s.list)
    ∧ (∀ n ∈ s.list, IsDummy n = true → HNode.hash n ∈ s.buckets)
    ∧ (0 : Nat) ∈ s.buckets
    ∧ s.power_of_2 ≤ 63
    ∧ s.size ≤ 5
    ∧ (∀ n ∈ s.list, storedValue n = true) := hInv

lemma InitializeBucket_step {hashF : K → Nat} (Hh : ∀ k0 : K, hashF k0 < 2 ^ 64)
    {b : Nat} (hb63 : b < 2 ^ 63) (hb0 : b ≠ 0)
    (s1 : TableState K V) (hInv1 : Inv hashF s1)
    (hpin : GetBucketParent b ∈ s1.buckets) :
    ∀ T, (T = if b ∈ s1.buckets then s1 else
        (if (InsertDummyNode s1 (GetBucketParent b) b).2 then
          { (InsertDummyNode s1 (GetBucketParent b) b).1 with
            buckets := b :: (InsertDummyNode s1 (GetBucketParent b) b).1.buckets }
         else (InsertDummyNode s1 (GetBucketParent b) b).1)) →
    Inv hashF T ∧ b ∈ T.buckets
    ∧ T.power_of_2 = s1.power_of_2 ∧ T.size = s1.size
    ∧ T.freedValues = s1.freedValues ∧ T.retiredValues = s1.retiredValues
    ∧ (∀ a ∈ s1.buckets, a ∈ T.buckets)
    ∧ (∀ n : HNode K V, n ∈ s1.list → n ∈ T.list)
    ∧ (∀ k2 h2 ov, HNode.regular k2 h2 ov ∈ T.list ↔ HNode.regular k2 h2 ov ∈ s1.list) := by
  obtain ⟨hpair, hval, hbd, hdb, hroot, hpow, hsize, hstore⟩ := Inv_parts hInv1
  intro T hT
  by_cases hbin : b ∈ s1.buckets
  · rw [if_pos hbin] at hT
    subst hT
    exact ⟨hInv1, hbin, rfl, rfl, rfl, rfl, fun a ha => ha, fun n hn => hn,
      fun k2 h2 ov => Iff.rfl⟩
  · rw [if_neg hbin] at hT
    have hnot : (HNode.dummy b : HNode K V) ∉ s1.list := by
      intro hmem
      exact hbin (by simpa [IsDummy, HNode.hash] using hdb _ hmem rfl)
    have hlt : Less (HNode.dummy (GetBucketParent b) : HNode K V)
        (HNode.dummy b) = true :=
      Less_dummy_dummy (DummyKey_parent_lt hb0 hb63)
    obtain ⟨s2, heq, e1, e2, e3, e4, e5, hmem, hpair2⟩ :=
      InsertDummyNode_spec Hh hpair hval (hbd _ hpin) hb63 hnot hlt
    rw [heq] at hT
    simp at hT
    subst hT
    refine ⟨⟨hpair2, ?_, ?_, ?_, ?_, ?_, ?_, ?_⟩, ?_, ?_, ?_, ?_, ?_, ?_, ?_, ?_⟩
    · intro n hn
      rcases (hmem n).mp hn with hn | hn
      · exact hval n hn
      · rw [hn]
        show validNode hashF (HNode.dummy b : HNode K V) = true
        simp only [validNode]
        exact decide_eq_true hb63
    · intro a ha
      rcases List.mem_cons.mp ha with ha | ha
      · rw [ha]; exact (hmem _).mpr (Or.inr rfl)
      · rw [e3] at ha
        exact (hmem _).mpr (Or.inl (hbd a ha))
    · intro n hn hd
      rcases (hmem n).mp hn with hn | hn
      · exact List.mem_cons_of_mem _ (e3 ▸ hdb n hn hd)
      · rw [hn]
        simp [HNode.hash]
    · exact List.mem_cons_of_mem _ (e3 ▸ hroot)
    · rw [e1]; exact hpow
    · rw [e2]; exact hsize
    · intro n hn
      rcases (hmem n).mp hn with hn | hn
      · exact hstore n hn
      · rw [hn]; simp [storedValue]
    · exact List.mem_cons_self _ _
    · exact e1
    · exact e2
    · exact e4
    · exact e5
    · intro a ha
      exact List.mem_cons_of_mem _ (e3 ▸ ha)
    · intro n hn
      exact (hmem n).mpr (Or.inl hn)
    · intro k2 h2 ov
      constructor
      · intro hn
        rcases (hmem _).mp hn with hn | hn
        · exact hn
        · cases hn
      · intro hn
        exact (hmem _).mpr (Or.inl hn)

lemma InitializeBucketAux_spec {hashF : K → Nat} (Hh : ∀ k0 : K, hashF k0 < 2 ^ 64) :
    ∀ fuel b : Nat, b ≤ fuel → ∀ s : TableState K V, Inv hashF s → b < 2 ^ 63 →
    Inv hashF (InitializeBucketAux fuel s b)
    ∧ b ∈ (InitializeBucketAux fuel s b).buckets
    ∧ (InitializeBucketAux fuel s b).power_of_2 = s.power_of_2
    ∧ (InitializeBucketAux fuel s b).size = s.size
    ∧ (InitializeBucketAux fuel s b).freedValues = s.freedValues
    ∧ (InitializeBucketAux fuel s b).retiredValues = s.retiredValues
    ∧ (∀ a ∈ s.buckets, a ∈ (InitializeBucketAux fuel s b).buckets)
    ∧ (∀ n : HNode K V, n ∈ s.list → n ∈ (InitializeBucketAux fuel s b).list)
    ∧ (∀ k2 h2 ov, HNode.regular k2 h2 ov ∈ (InitializeBucketAux fuel s b).list
        ↔ HNode.regular k2 h2 ov ∈ s.list) := by
  intro fuel
  induction fuel with
  | zero =>
    intro b hble s hInv hb63
    have hb0 : b = 0 := by omega
    subst hb0
    exact ⟨hInv, (Inv_parts hInv).2.2.2.2.1, rfl, rfl, rfl, rfl, fun a ha => ha,
      fun n hn => hn, fun k2 h2 ov => Iff.rfl⟩
  | succ fuel ih =>
    intro b hble s hInv hb63
    by_cases hb0 : b = 0
    · subst hb0
      have hunf : InitializeBucketAux (fuel + 1) s 0 = s := by
        show (if 0 = 0 then s else _) = s
        rw [if_pos rfl]
      rw [hunf]
      exact ⟨hInv, (Inv_parts hInv).2.2.2.2.1, rfl, rfl, rfl, rfl, fun a ha => ha,
        fun n hn => hn, fun k2 h2 ov => Iff.rfl⟩
    · have hplt := GetBucketParent_lt hb0
      have hp63 : GetBucketParent b < 2 ^ 63 := lt_trans hplt hb63
      set S1 : TableState K V := if GetBucketParent b ∈ s.buckets then s
        else InitializeBucketAux fuel s (GetBucketParent b) with hS1def
      have hS1 : Inv hashF S1
          ∧ GetBucketParent b ∈ S1.buckets
          ∧ S1.power_of_2 = s.power_of_2 ∧ S1.size = s.size
          ∧ S1.freedValues = s.freedValues ∧ S1.retiredValues = s.retiredValues
          ∧ (∀ a ∈ s.buckets, a ∈ S1.buckets)
          ∧ (∀ n : HNode K V, n ∈ s.list → n ∈ S1.list)
          ∧ (∀ k2 h2 ov, HNode.regular k2 h2 ov ∈ S1.list
              ↔ HNode.regular k2 h2 ov ∈ s.list) := by
        rw [hS1def]
        by_cases hpin : GetBucketParent b ∈ s.buckets
        · rw [if_pos hpin]
          exact ⟨hInv, hpin, rfl, rfl, rfl, rfl, fun a ha => ha, fun n hn => hn,
            fun k2 h2 ov => Iff.rfl⟩
        · rw [if_neg hpin]
          exact ih (GetBucketParent b) (by omega) s hInv hp63
      obtain ⟨s1Inv, s1pin, s1pow, s1size, s1freed, s1ret, s1bmono, s1lmono, s1regiff⟩ := hS1
      have hT : InitializeBucketAux (fuel + 1) s b
          = if b ∈ S1.buckets then S1
            else
              if (InsertDummyNode S1 (GetBucketParent b) b).2 then
                { (InsertDummyNode S1 (GetBucketParent b) b).1 with
                  buckets := b :: (InsertDummyNode S1 (GetBucketParent b) b).1.buckets }
              else (InsertDummyNode S1 (GetBucketParent b) b).1 := by
        show (if b = 0 then s
          else
            let p := GetBucketParent b
            let s1 := if p ∈ s.buckets then s else InitializeBucketAux fuel s p
            if b ∈ s1.buckets then s1
            else
              let r := InsertDummyNode s1 p b
              if r.2 then { r.1 with buckets := b :: r.1.buckets } else r.1) = _
        rw [if_neg hb0]
      obtain ⟨tInv, tbuck, tpow, tsize, tfreed, tret, tbmono, tlmono, tregiff⟩ :=
        InitializeBucket_step Hh hb63 hb0 S1 s1Inv s1pin
          (InitializeBucketAux (fuel + 1) s b) hT
      exact ⟨tInv, tbuck, by rw [tpow, s1pow], by rw [tsize, s1size],
        by rw [tfreed, s1freed], by rw [tret, s1ret],
        fun a ha => tbmono a (s1bmono a ha),
        fun n hn => tlmono n (s1lmono n hn),
        fun k2 h2 ov => (tregiff k2 h2 ov).trans (s1regiff k2 h2 ov)⟩

lemma InitializeBucket_spec {hashF : K → Nat} (Hh : ∀ k0 : K, hashF k0 < 2 ^ 64) :
    ∀ b : Nat, ∀ s : TableState K V, Inv hashF s → b < 2 ^ 63 →
    Inv hashF (InitializeBucket s b)
    ∧ b ∈ (InitializeBucket s b).buckets
    ∧ (InitializeBucket s b).power_of_2 = s.power_of_2
    ∧ (InitializeBucket s b).size = s.size
    ∧ (InitializeBucket s b).freedValues = s.freedValues
    ∧ (InitializeBucket s b).retiredValues = s.retiredValues
    ∧ (∀ a ∈ s.buckets, a ∈ (InitializeBucket s b).buckets)
    ∧ (∀ n : HNode K V, n ∈ s.list → n ∈ (InitializeBucket s b).list)
    ∧ (∀ k2 h2 ov, HNode.regular k2 h2 ov ∈ (InitializeBucket s b).list
        ↔ HNode.regular k2 h2 ov ∈ s.list) := by
  intro b s hInv hb63
  exact InitializeBucketAux_spec Hh b b le_rfl s hInv hb63

end BucketLemmas

section TableLemmas

variable {K V : Type} [LinearOrder K]

lemma GetBucketHeadByHash_spec {hashF : K → Nat} (Hh : ∀ k0 : K, hashF k0 < 2 ^ 64)
    {s : TableState K V} {h : Nat} (hInv : Inv hashF s) :
    Inv hashF (GetBucketHeadByHash s h).1
    ∧ (GetBucketHeadByHash s h).2 = h % 2 ^ s.power_of_2
    ∧ (GetBucketHeadByHash s h).2 ∈ (GetBucketHeadByHash s h).1.buckets
    ∧ (GetBucketHeadByHash s h).1.power_of_2 = s.power_of_2
    ∧ (GetBucketHeadByHash s h).1.size = s.size
    ∧ (GetBucketHeadByHash s h).1.freedValues = s.freedValues
    ∧ (GetBucketHeadByHash s h).1.retiredValues = s.retiredValues
    ∧ (∀ n : HNode K V, n ∈ s.list → n ∈ (GetBucketHeadByHash s h).1.list)
    ∧ (∀ k2 h2 ov, HNode.regular k2 h2 ov ∈ (GetBucketHeadByHash s h).1.list
        ↔ HNode.regular k2 h2 ov ∈ s.list) := by
  obtain ⟨hpair, hval, hbd, hdb, hroot, hpow, hsize, hstore⟩ := Inv_parts hInv
  have hbs : bucket_size s = 2 ^ s.power_of_2 := Nat.one_shiftLeft _
  have hb2 : h % bucket_size s = h % 2 ^ s.power_of_2 := by rw [hbs]
  have hb63 : h % bucket_size s < 2 ^ 63 := by
    have h1 : h % bucket_size s < bucket_size s :=
      Nat.mod_lt _ (by rw [hbs]; positivity)
    have h2 : (2 : Nat) ^ s.power_of_2 ≤ 2 ^ 63 :=
      Nat.pow_le_pow_right (by norm_num) hpow
    omega
  have hgb : GetBucketHeadByHash s h
      = if h % bucket_size s ∈ s.buckets then (s, h % bucket_size s)
        else (InitializeBucket s (h % bucket_size s), h % bucket_size s) := rfl
  by_cases hin : h % bucket_size s ∈ s.buckets
  · rw [hgb, if_pos hin]
    exact ⟨hInv, hb2, hin, rfl, rfl, rfl, rfl,
      fun n hn => hn, fun k2 h2 ov => Iff.rfl⟩
  · rw [hgb, if_neg hin]
    obtain ⟨iInv, ibuck, ipow, isize, ifreed, iret, ibmono, ilmono, iregiff⟩ :=
      InitializeBucket_spec Hh (h % bucket_size s) s hInv hb63
    exact ⟨iInv, hb2, ibuck, ipow, isize, ifreed, iret,
      ilmono, iregiff⟩

lemma mem_contains {hashF : K → Nat} {s : TableState K V} {k : K} {ov : Option V}
    (hmem : HNode.regular k (hashF k) ov ∈ s.list) : contains hashF s k = true :=
  contains_iff.mpr ⟨_, hmem, Equals_self_search⟩

lemma contains_mem {hashF : K → Nat} (Hh : ∀ k0 : K, hashF k0 < 2 ^ 64)
    {s : TableState K V} {k : K}
    (hval : ∀ n ∈ s.list, validNode hashF n = true)
    (hc : contains hashF s k = true) :
    ∃ ov, HNode.regular k (hashF k) ov ∈ s.list := by
  obtain ⟨n, hn, he⟩ := contains_iff.mp hc
  obtain ⟨ov, hov⟩ := Equals_search Hh (hval n hn) he
  exact ⟨ov, hov ▸ hn⟩

lemma contains_eq_of_regiff {hashF : K → Nat} (Hh : ∀ k0 : K, hashF k0 < 2 ^ 64)
    {s1 s2 : TableState K V}
    (hval1 : ∀ n ∈ s1.list, validNode hashF n = true)
    (hval2 : ∀ n ∈ s2.list, validNode hashF n = true)
    (hiff : ∀ k2 h2 ov, HNode.regular k2 h2 ov ∈ s1.list ↔ HNode.regular k2 h2 ov ∈ s2.list)
    (k : K) : contains hashF s1 k = contains hashF s2 k := by
  cases hc1 : contains hashF s1 k
  · cases hc2 : contains hashF s2 k
    · rfl
    · exfalso
      obtain ⟨ov, hov⟩ := contains_mem Hh hval2 hc2
      have : contains hashF s1 k = true := mem_contains ((hiff _ _ _).mpr hov)
      rw [hc1] at this; cases this
  · obtain ⟨ov, hov⟩ := contains_mem Hh hval1 hc1
    exact (mem_contains ((hiff _ _ _).mp hov)).symm

lemma search_not_found {hashF : K → Nat} (Hh : ∀ k0 : K, hashF k0 < 2 ^ 64)
    {s : TableState K V} {k : K} {w : Option V} {pre tail : List (HNode K V)} {b : Nat}
    (hval : ∀ n ∈ s.list, validNode hashF n = true)
    (hsp : splitAtDummy b s.list = some (pre, tail))
    (hnc : contains hashF s k = false) :
    (SearchNode (HNode.regular k (hashF k) w) tail).1 = false := by
  cases hf : (SearchNode (HNode.regular k (hashF k) w) tail).1
  · rfl
  · exfalso
    obtain ⟨n, hn, he⟩ := SearchNode_found hf
    have hmem : n ∈ s.list := by rw [splitAtDummy_eq hsp]; simp [hn]
    have he2 : Equals n (HNode.regular k (hashF k) none) = true := by
      rw [Equals_value_right (a := none) (b := w)]; exact he
    have : contains hashF s k = true := contains_iff.mpr ⟨n, hmem, he2⟩
    rw [hnc] at this; cases this

lemma search_found_mem {hashF : K → Nat} (Hh : ∀ k0 : K, hashF k0 < 2 ^ 64)
    {s : TableState K V} {k : K} {ov w : Option V} {pre tail : List (HNode K V)}
    (hInv : Inv hashF s)
    (hsp : splitAtDummy (hashF k % 2 ^ s.power_of_2) s.list = some (pre, tail))
    (hmem : HNode.regular k (hashF k) ov ∈ s.list) :
    ∃ mid rest2, SearchNode (HNode.regular k (hashF k) w) tail
      = (true, mid, HNode.regular k (hashF k) ov :: rest2) := by
  obtain ⟨hpair, hval, hbd, hdb, hroot, hpow, hsize, hstore⟩ := Inv_parts hInv
  have hdecomp := splitAtDummy_eq hsp
  have hd : Less (HNode.dummy (hashF k % 2 ^ s.power_of_2) : HNode K V)
      (HNode.regular k (hashF k) w) = true :=
    Less_dummy_regular hpow (Hh k) rfl
  have hvsn : validNode hashF (HNode.regular k (hashF k) w : HNode K V) = true := by
    simp [validNode]
  have hintail : HNode.regular k (hashF k) ov ∈ tail := by
    apply equals_mem_tail Hh (hdecomp ▸ hpair) (fun m hm => hval m (hdecomp ▸ hm))
      hvsn hd (hdecomp ▸ hmem)
    exact Equals_self_search
  have hpairtail : List.Pairwise (fun a b2 => Less a b2 = true) tail := by
    have := hdecomp ▸ hpair
    rw [List.pairwise_append, List.pairwise_cons] at this
    exact this.2.1.2
  exact SearchNode_mem Hh hpairtail
    (fun m hm => hval m (by rw [hdecomp]; simp [hm])) hvsn hintail Equals_self_search

lemma pairwise_replace_value {l1 l2 : List (HNode K V)} {k : K} {h : Nat}
    {v1 v2 : Option V}
    (hp : List.Pairwise (fun a b2 => Less a b2 = true)
      (l1 ++ HNode.regular k h v1 :: l2)) :
    List.Pairwise (fun a b2 => Less a b2 = true)
      (l1 ++ HNode.regular k h v2 :: l2) := by
  rw [List.pairwise_append, List.pairwise_cons] at hp ⊢
  obtain ⟨h1, ⟨h2, h3⟩, h4⟩ := hp
  refine ⟨h1, ⟨?_, h3⟩, ?_⟩
  · intro y hy
    rw [Less_value_left (a := v2) (b := v1)]
    exact h2 y hy
  · intro a ha b2 hb2
    rcases List.mem_cons.mp hb2 with hb2 | hb2
    · rw [hb2, Less_value_right (a := v2) (b := v1)]
      exact h4 a ha _ (List.mem_cons_self _ _)
    · exact h4 a ha b2 (List.mem_cons_of_mem _ hb2)

end TableLemmas

section InsertSpec

variable {K V : Type} [LinearOrder K]

/-- Full sequential characterization of `Insert`: a contained key is
updated in place (old value freed inline); a fresh key aborts on the
debug trap when the size is 5 and is otherwise linked, incrementing the
size and growing the table exactly when the load factor is exceeded. -/
lemma Insert_spec {hashF : K → Nat} (Hh : ∀ k0 : K, hashF k0 < 2 ^ 64)
    {s : TableState K V} (hInv : Inv hashF s) (k : K) (v : V) :
    (contains hashF s k = true →
      ∃ s2 old, Insert hashF s k v = some s2
        ∧ Inv hashF s2
        ∧ s2.size = s.size ∧ s2.power_of_2 = s.power_of_2
        ∧ HNode.regular k (hashF k) (some v) ∈ s2.list
        ∧ HNode.regular k (hashF k) (some old) ∈ s.list
        ∧ s2.freedValues = old :: s.freedValues
        ∧ s2.retiredValues = s.retiredValues)
    ∧ (contains hashF s k = false → s.size = 5 → Insert hashF s k v = none)
    ∧ (contains hashF s k = false → s.size ≠ 5 →
      ∃ s2, Insert hashF s k v = some s2
        ∧ Inv hashF s2
        ∧ s2.size = s.size + 1
        ∧ s2.power_of_2 = (if 2 ^ s.power_of_2 < 2 * (s.size + 1)
            then s.power_of_2 + 1 else s.power_of_2)
        ∧ HNode.regular k (hashF k) (some v) ∈ s2.list
        ∧ s2.freedValues = s.freedValues ∧ s2.retiredValues = s.retiredValues) := by
  rcases hgb : GetBucketHeadByHash s (hashF k) with ⟨s1, b⟩
  obtain ⟨g1, g2, g3, g4, g5, g6, g7, g8, g9⟩ := GetBucketHeadByHash_spec Hh hInv (h := hashF k)
  rw [hgb] at g1 g2 g3 g4 g5 g6 g7 g8 g9
  simp only at g1 g2 g3 g4 g5 g6 g7 g8 g9
  obtain ⟨hpair1, hval1, hbd1, hdb1, hroot1, hpow1, hsize1, hstore1⟩ := Inv_parts g1
  have hIns : Insert hashF s k v = InsertRegularNode s1 b k (hashF k) v := by
    show InsertRegularNode (GetBucketHeadByHash s (hashF k)).1
      (GetBucketHeadByHash s (hashF k)).2 k (hashF k) v = _
    rw [hgb]
  have hb' : b = hashF k % 2 ^ s1.power_of_2 := by rw [g2, g4]
  obtain ⟨pre, tail, hsp0⟩ := splitAtDummy_of_mem (hbd1 b g3)
  have hdec := splitAtDummy_eq hsp0
  have hcontains : contains hashF s1 k = contains hashF s k :=
    contains_eq_of_regiff Hh hval1 (Inv_parts hInv).2.1 g9 k
  refine ⟨?_, ?_, ?_⟩
  · -- update path
    intro hc
    obtain ⟨ov, hov⟩ := contains_mem Hh hval1 (by rw [hcontains]; exact hc)
    have hovs : ov.isSome = true := hstore1 _ hov
    obtain ⟨old, hold⟩ := Option.isSome_iff_exists.mp hovs
    subst hold
    have hsp1 : splitAtDummy (hashF k % 2 ^ s1.power_of_2) s1.list = some (pre, tail) := by
      rw [← hb']; exact hsp0
    obtain ⟨mid, rest2, hsr⟩ :=
      search_found_mem Hh g1 hsp1 hov (w := some v)
    have htail := (SearchNode_append hsr).1
    refine ⟨{ s1 with
        list := pre ++ HNode.dummy b :: mid
          ++ HNode.regular k (hashF k) (some v) :: rest2,
        freedValues := old :: s1.freedValues }, old, ?_, ?_, ?_, ?_, ?_, ?_, ?_, ?_⟩
    · rw [hIns]
      simp only [InsertRegularNode, hsp0, hsr]
    · -- invariant of the updated state
      have hp1 : s1.list = (pre ++ HNode.dummy b :: mid)
          ++ HNode.regular k (hashF k) (some old) :: rest2 := by
        rw [hdec, htail]; simp
      have hmem2 : ∀ n : HNode K V,
          n ∈ pre ++ HNode.dummy b :: mid
            ++ HNode.regular k (hashF k) (some v) :: rest2
          → n = HNode.regular k (hashF k) (some v) ∨ n ∈ s1.list := by
        intro n hn
        rw [hp1]
        simp only [List.mem_append, List.mem_cons] at hn ⊢
        tauto
      have hmemold : ∀ n : HNode K V, n ∈ s1.list
          → n = HNode.regular k (hashF k) (some old)
            ∨ n ∈ pre ++ HNode.dummy b :: mid
              ++ HNode.regular k (hashF k) (some v) :: rest2 := by
        intro n hn
        rw [hp1] at hn
        simp only [List.mem_append, List.mem_cons] at hn ⊢
        tauto
      refine ⟨?_, ?_, ?_, ?_, hroot1, hpow1, hsize1, ?_⟩
      · show List.Pairwise _ (pre ++ HNode.dummy b :: mid
          ++ HNode.regular k (hashF k) (some v) :: rest2)
        have : pre ++ HNode.dummy b :: mid
            ++ HNode.regular k (hashF k) (some v) :: rest2
            = (pre ++ HNode.dummy b :: mid)
              ++ HNode.regular k (hashF k) (some v) :: rest2 := by simp
        rw [this]
        exact pairwise_replace_value (hp1 ▸ hpair1)
      · intro n hn
        rcases hmem2 n hn with hn | hn
        · rw [hn]; simp [validNode]
        · exact hval1 n hn
      · intro a ha
        rcases hmemold _ (hbd1 a ha) with he | he
        · cases he
        · exact he
      · intro n hn hd
        rcases hmem2 n hn with hn | hn
        · rw [hn] at hd; simp [IsDummy] at hd
        · exact hdb1 n hn hd
      · intro n hn
        rcases hmem2 n hn with hn | hn
        · rw [hn]; simp [storedValue]
        · exact hstore1 n hn
    · exact g5
    · exact g4
    · simp
    · exact (g9 _ _ _).mp hov
    · simp [g6]
    · exact g7
  · -- fresh key, size trap
    intro hc hc5
    have hnf := search_not_found Hh hval1 hsp0 (w := some v)
      (by rw [hcontains]; exact hc)
    rcases hsr : SearchNode (HNode.regular k (hashF k) (some v)) tail with ⟨f, mid, post⟩
    have hf : f = false := by rw [hsr] at hnf; exact hnf
    subst hf
    rw [hIns]
    simp only [InsertRegularNode, hsp0, hsr]
    rw [if_pos (show s1.size = 5 by rw [g5]; exact hc5)]
  · -- fresh key, linked
    intro hc hc5
    have hnf := search_not_found Hh hval1 hsp0 (w := some v)
      (by rw [hcontains]; exact hc)
    rcases hsr : SearchNode (HNode.regular k (hashF k) (some v)) tail with ⟨f, mid, post⟩
    have hf : f = false := by rw [hsr] at hnf; exact hnf
    subst hf
    have htail := (SearchNode_append hsr).1
    refine ⟨{ s1 with
        list := pre ++ HNode.dummy b :: mid
          ++ HNode.regular k (hashF k) (some v) :: post,
        size := s1.size + 1,
        power_of_2 := if 2 ^ s1.power_of_2 < 2 * (s1.size + 1)
          then s1.power_of_2 + 1 else s1.power_of_2 }, ?_, ?_, ?_, ?_, ?_, ?_, ?_⟩
    · rw [hIns]
      simp only [InsertRegularNode, hsp0, hsr]
      rw [if_neg (show ¬ s1.size = 5 by rw [g5]; exact hc5)]
    · -- invariant of the linked state
      have hmem2 : ∀ n : HNode K V,
          n ∈ pre ++ HNode.dummy b :: mid
            ++ HNode.regular k (hashF k) (some v) :: post
          → n = HNode.regular k (hashF k) (some v) ∨ n ∈ s1.list := by
        intro n hn
        rw [hdec, htail]
        simp only [List.mem_append, List.mem_cons] at hn ⊢
        tauto
      have hmemold : ∀ n : HNode K V, n ∈ s1.list
          → n ∈ pre ++ HNode.dummy b :: mid
            ++ HNode.regular k (hashF k) (some v) :: post := by
        intro n hn
        rw [hdec, htail] at hn
        simp only [List.mem_append, List.mem_cons] at hn ⊢
        tauto
      have hgrow : (if 2 ^ s1.power_of_2 < 2 * (s1.size + 1)
          then s1.power_of_2 + 1 else s1.power_of_2) ≤ 63 := by
        by_cases hcond : 2 ^ s1.power_of_2 < 2 * (s1.size + 1)
        · rw [if_pos hcond]
          have hsz : s1.size ≤ 4 := by omega
          have hple : s1.power_of_2 ≤ 3 := by
            by_contra hgt
            push_neg at hgt
            have : (2 : Nat) ^ 4 ≤ 2 ^ s1.power_of_2 :=
              Nat.pow_le_pow_right (by norm_num) (by omega)
            norm_num at this
            omega
          omega
        · rw [if_neg hcond]; exact hpow1
      refine ⟨?_, ?_, ?_, ?_, hroot1, hgrow, by simp; omega, ?_⟩
      · show List.Pairwise _ (pre ++ HNode.dummy b :: mid
          ++ HNode.regular k (hashF k) (some v) :: post)
        have hd : Less (HNode.dummy b : HNode K V)
            (HNode.regular k (hashF k) (some v)) = true :=
          Less_dummy_regular hpow1 (Hh k) hb'
        exact pairwise_insert_split (hdec ▸ hpair1) hsr hd
      · intro n hn
        rcases hmem2 n hn with hn | hn
        · rw [hn]; simp [validNode]
        · exact hval1 n hn
      · intro a ha
        exact hmemold _ (hbd1 a ha)
      · intro n hn hd
        rcases hmem2 n hn with hn | hn
        · rw [hn] at hd; simp [IsDummy] at hd
        · exact hdb1 n hn hd
      · intro n hn
        rcases hmem2 n hn with hn | hn
        · rw [hn]; simp [storedValue]
        · exact hstore1 n hn
    · simp [g5]
    · simp only [g4, g5]
    · simp
    · simp [g6]
    · exact g7

/-- Sequential characterization of `Delete`: an absent key reports false
and leaves the size unchanged; a present key is unlinked, the size is
decremented and the key is no longer contained. -/
lemma Delete_spec {hashF : K → Nat} (Hh : ∀ k0 : K, hashF k0 < 2 ^ 64)
    {s : TableState K V} (hInv : Inv hashF s) (k : K) :
    (contains hashF s k = false →
      (Delete hashF s k).1 = false ∧ (Delete hashF s k).2.size = s.size
        ∧ Inv hashF (Delete hashF s k).2
        ∧ contains hashF (Delete hashF s k).2 k = false)
    ∧ (contains hashF s k = true →
      (Delete hashF s k).1 = true
        ∧ Inv hashF (Delete hashF s k).2
        ∧ contains hashF (Delete hashF s k).2 k = false
        ∧ (Delete hashF s k).2.power_of_2 = s.power_of_2) := by
  rcases hgb : GetBucketHeadByHash s (hashF k) with ⟨s1, b⟩
  obtain ⟨g1, g2, g3, g4, g5, g6, g7, g8, g9⟩ := GetBucketHeadByHash_spec Hh hInv (h := hashF k)
  rw [hgb] at g1 g2 g3 g4 g5 g6 g7 g8 g9
  simp only at g1 g2 g3 g4 g5 g6 g7 g8 g9
  obtain ⟨hpair1, hval1, hbd1, hdb1, hroot1, hpow1, hsize1, hstore1⟩ := Inv_parts g1
  have hDel : Delete hashF s k = DeleteNode s1 b k (hashF k) := by
    show DeleteNode (GetBucketHeadByHash s (hashF k)).1
      (GetBucketHeadByHash s (hashF k)).2 k (hashF k) = _
    rw [hgb]
  have hb' : b = hashF k % 2 ^ s1.power_of_2 := by rw [g2, g4]
  obtain ⟨pre, tail, hsp0⟩ := splitAtDummy_of_mem (hbd1 b g3)
  have hdec := splitAtDummy_eq hsp0
  have hcontains : contains hashF s1 k = contains hashF s k :=
    contains_eq_of_regiff Hh hval1 (Inv_parts hInv).2.1 g9 k
  constructor
  · intro hc
    have hnf := search_not_found Hh hval1 hsp0 (w := none)
      (by rw [hcontains]; exact hc)
    rcases hsr : SearchNode (HNode.regular k (hashF k) none) tail with ⟨f, mid, post⟩
    have hf : f = false := by rw [hsr] at hnf; exact hnf
    subst hf
    have hred : DeleteNode s1 b k (hashF k) = (false, s1) := by
      simp only [DeleteNode, hsp0, hsr]
    rw [hDel, hred]
    exact ⟨rfl, g5, g1, by rw [hcontains]; exact hc⟩
  · intro hc
    obtain ⟨ov, hov⟩ := contains_mem Hh hval1 (by rw [hcontains]; exact hc)
    have hsp1 : splitAtDummy (hashF k % 2 ^ s1.power_of_2) s1.list = some (pre, tail) := by
      rw [← hb']; exact hsp0
    obtain ⟨mid, rest2, hsr⟩ := search_found_mem Hh g1 hsp1 hov (w := none)
    have htail := (SearchNode_append hsr).1
    have hred : DeleteNode s1 b k (hashF k)
        = (true,
          { s1 with
            list := pre ++ HNode.dummy b :: mid ++ rest2,
            size := s1.size - 1 }) := by
      simp only [DeleteNode, hsp0, hsr]
    rw [hDel, hred]
    have hvsn : validNode hashF (HNode.regular k (hashF k) none : HNode K V) = true := by
      simp [validNode]
    have hpair1' : List.Pairwise (fun a b2 => Less a b2 = true)
        (pre ++ HNode.dummy b :: (mid ++ HNode.regular k (hashF k) ov :: rest2)) := by
      rw [← htail, ← hdec]; exact hpair1
    have hmem2 : ∀ n : HNode K V, n ∈ pre ++ HNode.dummy b :: mid ++ rest2
        → n ∈ s1.list := by
      intro n hn
      rw [hdec, htail]
      simp only [List.mem_append, List.mem_cons] at hn ⊢
      tauto
    have hsub : (pre ++ HNode.dummy b :: (mid ++ rest2)).Sublist
        (pre ++ HNode.dummy b :: (mid ++ HNode.regular k (hashF k) ov :: rest2)) := by
      apply List.Sublist.append_left
      apply List.Sublist.cons₂
      apply List.Sublist.append_left
      exact List.sublist_cons_self _ _
    have hshape : pre ++ HNode.dummy b :: mid ++ rest2
        = pre ++ HNode.dummy b :: (mid ++ rest2) := by simp
    have hpair2B : List.Pairwise (fun a b2 => Less a b2 = true)
        (pre ++ HNode.dummy b :: (mid ++ rest2)) :=
      List.Pairwise.sublist hsub hpair1'
    have hpair2 : List.Pairwise (fun a b2 => Less a b2 = true)
        (pre ++ HNode.dummy b :: mid ++ rest2) := by
      rw [hshape]; exact hpair2B
    have hInv2 : Inv hashF
        ({ s1 with
           list := pre ++ HNode.dummy b :: mid ++ rest2,
           size := s1.size - 1 } : TableState K V) := by
      refine ⟨hpair2, ?_, ?_, ?_, hroot1, hpow1, by simp; omega, ?_⟩
      · intro n hn
        exact hval1 n (hmem2 n hn)
      · intro a ha
        have hda := hbd1 a ha
        rw [hdec, htail] at hda
        simp only [List.mem_append, List.mem_cons] at hda ⊢
        rcases hda with h | h | h | h | h
        · tauto
        · tauto
        · tauto
        · cases h
        · tauto
      · intro n hn hd
        exact hdb1 n (hmem2 n hn) hd
      · intro n hn
        exact hstore1 n (hmem2 n hn)
    have hnc2 : contains hashF
        ({ s1 with
           list := pre ++ HNode.dummy b :: mid ++ rest2,
           size := s1.size - 1 } : TableState K V) k = false := by
      cases hc2 : contains hashF
        ({ s1 with
           list := pre ++ HNode.dummy b :: mid ++ rest2,
           size := s1.size - 1 } : TableState K V) k
      · rfl
      · exfalso
        obtain ⟨n, hn, he⟩ := contains_iff.mp hc2
        simp only at hn
        have hd : Less (HNode.dummy b : HNode K V)
            (HNode.regular k (hashF k) none) = true :=
          Less_dummy_regular hpow1 (Hh k) hb'
        have hintail : n ∈ mid ++ rest2 := by
          apply equals_mem_tail Hh hpair2B
            (fun m hm => hval1 m (hmem2 m (by rw [hshape]; exact hm))) hvsn hd
            (hshape ▸ hn) he
        rcases List.mem_append.mp hintail with hnm | hnr
        · have hlt : Less n (HNode.regular k (hashF k) none) = true :=
            (SearchNode_append hsr).2 n hnm
          rw [Equals_iff] at he
          rw [he.1] at hlt; cases hlt
        · have hspl : (pre ++ HNode.dummy b :: mid)
              ++ HNode.regular k (hashF k) ov :: rest2
              = pre ++ HNode.dummy b :: (mid ++ HNode.regular k (hashF k) ov :: rest2) := by
            simp
          have hpl := hspl ▸ hpair1'
          rw [List.pairwise_append, List.pairwise_cons] at hpl
          have hlt : Less (HNode.regular k (hashF k) ov : HNode K V) n = true :=
            hpl.2.1.1 n hnr
          have hesn : Equals (HNode.regular k (hashF k) none : HNode K V)
              (HNode.regular k (hashF k) ov) = true := Equals_self_search
          have hltn : Less (HNode.regular k (hashF k) none : HNode K V) n = true :=
            Less_of_Equals_of_Less Hh hvsn (hval1 _ hov) hesn hlt
          rw [Equals_iff] at he
          rw [he.2] at hltn; cases hltn
    exact ⟨rfl, hInv2, hnc2, g4⟩

/-- Sequential characterization of `Find`. -/
lemma Find_spec {hashF : K → Nat} (Hh : ∀ k0 : K, hashF k0 < 2 ^ 64)
    {s : TableState K V} (hInv : Inv hashF s) (k : K) :
    (contains hashF s k = false → (Find hashF s k).1 = (false, none))
    ∧ (∀ v : V, HNode.regular k (hashF k) (some v) ∈ s.list
        → (Find hashF s k).1 = (true, some v)) := by
  rcases hgb : GetBucketHeadByHash s (hashF k) with ⟨s1, b⟩
  obtain ⟨g1, g2, g3, g4, g5, g6, g7, g8, g9⟩ := GetBucketHeadByHash_spec Hh hInv (h := hashF k)
  rw [hgb] at g1 g2 g3 g4 g5 g6 g7 g8 g9
  simp only at g1 g2 g3 g4 g5 g6 g7 g8 g9
  obtain ⟨hpair1, hval1, hbd1, hdb1, hroot1, hpow1, hsize1, hstore1⟩ := Inv_parts g1
  have hFind : (Find hashF s k).1 = FindNode s1 b k (hashF k) := by
    have he : Find hashF s k
        = (FindNode (GetBucketHeadByHash s (hashF k)).1
            (GetBucketHeadByHash s (hashF k)).2 k (hashF k),
           (GetBucketHeadByHash s (hashF k)).1) := rfl
    rw [he, hgb]
  have hb' : b = hashF k % 2 ^ s1.power_of_2 := by rw [g2, g4]
  obtain ⟨pre, tail, hsp0⟩ := splitAtDummy_of_mem (hbd1 b g3)
  have hcontains : contains hashF s1 k = contains hashF s k :=
    contains_eq_of_regiff Hh hval1 (Inv_parts hInv).2.1 g9 k
  constructor
  · intro hc
    have hnf := search_not_found Hh hval1 hsp0 (w := none)
      (by rw [hcontains]; exact hc)
    rcases hsr : SearchNode (HNode.regular k (hashF k) none) tail with ⟨f, mid, post⟩
    have hf : f = false := by rw [hsr] at hnf; exact hnf
    subst hf
    rw [hFind]
    simp only [FindNode, hsp0, hsr]
  · intro v hmem
    have hmem1 : HNode.regular k (hashF k) (some v) ∈ s1.list := (g9 _ _ _).mpr hmem
    have hsp1 : splitAtDummy (hashF k % 2 ^ s1.power_of_2) s1.list = some (pre, tail) := by
      rw [← hb']; exact hsp0
    obtain ⟨mid, rest2, hsr⟩ := search_found_mem Hh g1 hsp1 hmem1 (w := none)
    rw [hFind]
    simp only [FindNode, hsp0, hsr]

end InsertSpec

lemma hashM_lt : ∀ n : Nat, hashM n < 2 ^ 64 := fun n => Nat.mod_lt _ (by positivity)

/-! ## Claim theorems -/

/-- C7: the static table `reverse8bits_` holds the 8-bit bitwise reverse
of every index below 256, and `Node::Reverse` — eight table lookups with
shifts and ORs — equals the full 64-bit bitwise reversal for every 64-bit
hash (`revBits 64`, whose bit `i` is bit `63 - i` of the argument, as the
third conjunct certifies). -/
theorem C7_reverse8bits_and_Reverse_correct :
    (∀ i : Nat, i < 256 → tbl i = revBits 8 i)
    ∧ (∀ h : Nat, h < 2 ^ 64 → Reverse h = revBits 64 h)
    ∧ (∀ h i : Nat, i < 64 → (revBits 64 h).testBit i = h.testBit (63 - i)) := by
  refine ⟨fun i hi => (tbl_spec i hi).1, fun h hh => Reverse_eq_revBits hh, ?_⟩
  intro h i hi
  have := testBit_revBits (w := 64) h hi
  have e : 64 - 1 - i = 63 - i := by omega
  rw [e] at this
  exact this

theorem C7_witness :
    (1 < 256 ∧ tbl 1 = revBits 8 1)
    ∧ (3 < 2 ^ 64 ∧ Reverse 3 = revBits 64 3)
    ∧ (1 < 64 ∧ (revBits 64 3).testBit 1 = Nat.testBit 3 (63 - 1)) :=
  ⟨⟨by norm_num, C7_reverse8bits_and_Reverse_correct.1 1 (by norm_num)⟩,
   ⟨by norm_num, C7_reverse8bits_and_Reverse_correct.2.1 3 (by norm_num)⟩,
   ⟨by norm_num, C7_reverse8bits_and_Reverse_correct.2.2 3 1 (by norm_num)⟩⟩

/-- C6: for a bucket index `b = h mod 2^k` (any table exponent `k`; a
64-bit `1 << power_of_2_` admits exponents up to 63) the dummy sort key
`Reverse(b)` is strictly below the regular sort key `Reverse(h | 2^63)`,
the dummy key is even, the regular key is odd, and consequently the dummy
node of bucket `b` compares `Less` than every regular node of that
bucket. -/
theorem C6_dummy_sorts_first {K V : Type} [LinearOrder K]
    (k b h : Nat) (hk : k ≤ 63) (hh : h < 2 ^ 64) (hb : h % 2 ^ k = b) :
    DummyKey b < RegularKey h
    ∧ DummyKey b % 2 = 0
    ∧ RegularKey h % 2 = 1
    ∧ ∀ (key : K) (vv : Option V),
        Less (HNode.dummy b : HNode K V) (HNode.regular key h vv) = true := by
  have hb63 : b < 2 ^ 63 := by
    have h1 : h % 2 ^ k < 2 ^ k := Nat.mod_lt _ (by positivity)
    have h2 : (2 : Nat) ^ k ≤ 2 ^ 63 := Nat.pow_le_pow_right (by norm_num) hk
    omega
  refine ⟨DummyKey_lt_RegularKey hk hh hb.symm, DummyKey_even hb63,
    RegularKey_odd hh, fun key vv => Less_dummy_regular hk hh hb.symm⟩

theorem C6_witness :
    1 ≤ 63 ∧ 5 < 2 ^ 64 ∧ 5 % 2 ^ 1 = 1
    ∧ (DummyKey 1 < RegularKey 5
      ∧ DummyKey 1 % 2 = 0
      ∧ RegularKey 5 % 2 = 1
      ∧ ∀ (key : Nat) (vv : Option Nat),
          Less (HNode.dummy 1 : HNode Nat Nat) (HNode.regular key 5 vv) = true) :=
  ⟨by norm_num, by norm_num, by norm_num,
   C6_dummy_sorts_first 1 1 5 (by norm_num) (by norm_num) (by norm_num)⟩

/-- C8: the reclamation threshold multiplier `kCoefficient` is written
`4 + 1 / 4` in reclaimer.h, but `1 / 4` is C++ integer division, so the
constant equals 4 — not approximately 4.25 and not strictly greater
than 4 as the specification claims. The scan pass of
`ReclaimNoHazardPointer` therefore runs exactly when the retire map holds
at least `4 ×` the hazard-registry size. -/
theorem C8_kCoefficient_is_exactly_four :
    kCoefficient = 4 ∧ ¬ 4 < kCoefficient
    ∧ ∀ r g : Nat, reclaimScanRuns r g = true ↔ 4 * g ≤ r := by
  refine ⟨rfl, by norm_num [kCoefficient], ?_⟩
  intro r g
  simp [reclaimScanRuns, kCoefficient]
  try omega

/-- C1: code bug. The insert-find round trip holds for the first five
distinct keys, but the sixth distinct-key insert reaches the leftover
debug block `if (size_ == 5) { head->Dump(); new_node->Dump(); Dump();
assert(false); }` in `InsertRegularNode` (lockfree_hashtable.h lines
474-479) and aborts the program (embedded as `none`), so a sequence of
six distinct keys can never be inserted and found again. -/
theorem C1_sixth_distinct_insert_hits_assert :
    (insertSeq hashM initTable [(1, 1), (2, 2), (3, 3), (4, 4), (5, 5)]).map
      (fun s => (s.size, FindUpd hashM s 1 0, FindUpd hashM s 2 0,
        FindUpd hashM s 3 0, FindUpd hashM s 4 0, FindUpd hashM s 5 0))
      = some (5, 1, 2, 3, 4, 5)
    ∧ insertSeq hashM initTable [(1, 1), (2, 2), (3, 3), (4, 4), (5, 5), (6, 6)]
      = none := by
  constructor
  · decide
  · decide

/-- C2: last-writer-wins. From any reachable table, once `Insert(k, v)`
has completed, a second `Insert(k, v2)` always completes (the update path
cannot abort), leaves `Find(k)` returning `v2`, and leaves `size()`
unchanged: a duplicate key is an update, never a second entry. -/
theorem C2_last_writer_wins {K V : Type} [LinearOrder K] (hashF : K → Nat)
    (Hh : ∀ k0 : K, hashF k0 < 2 ^ 64) (s : TableState K V) (hInv : Inv hashF s)
    (k : K) (v v2 : V) (s1 : TableState K V)
    (h1 : Insert hashF s k v = some s1) :
    (Insert hashF s1 k v2).map (fun s2 => ((Find hashF s2 k).1, s2.size))
      = some ((true, some v2), s1.size) := by
  obtain ⟨hupd, htrap, hlink⟩ := Insert_spec Hh hInv k v
  have hstate : Inv hashF s1 ∧ HNode.regular k (hashF k) (some v) ∈ s1.list := by
    cases hc : contains hashF s k
    · by_cases h5 : s.size = 5
      · rw [htrap hc h5] at h1; cases h1
      · obtain ⟨s2, heq, hI, _, _, hmem, _, _⟩ := hlink hc h5
        rw [heq] at h1
        injection h1 with h1
        subst h1
        exact ⟨hI, hmem⟩
    · obtain ⟨s2, old, heq, hI, _, _, hmem, _, _, _⟩ := hupd hc
      rw [heq] at h1
      injection h1 with h1
      subst h1
      exact ⟨hI, hmem⟩
  obtain ⟨hInv1, hmem1⟩ := hstate
  obtain ⟨hupd1, _, _⟩ := Insert_spec Hh hInv1 k v2
  obtain ⟨s2, old2, heq2, hInv2, hsz2, _, hmem2, _, _, _⟩ :=
    hupd1 (mem_contains hmem1)
  rw [heq2]
  have hfind := (Find_spec Hh hInv2 k).2 v2 hmem2
  simp only [Option.map, hfind, hsz2]

theorem C2_witness :
    Inv hashM (initTable : TableState Nat Nat)
    ∧ Insert hashM initTable 1 10 = some exTable
    ∧ (Insert hashM exTable 1 20).map (fun s2 => ((Find hashM s2 1).1, s2.size))
      = some ((true, some 20), 1) :=
  ⟨by decide, by decide,
   C2_last_writer_wins hashM hashM_lt initTable (by decide) 1 10 20 exTable (by decide)⟩

/-- C3 counterexample: in the concrete run `Insert(1,10); Insert(1,20)`
the displaced value 10 is deleted inline (it lands in the freed log) and
nothing is ever handed to the reclaimer (the retired log stays empty), so
the displaced value is not retired as the claim states. -/
theorem C3_counterexample_displaced_value_not_retired :
    ((Insert hashM (initTable : TableState Nat Nat) 1 10).bind
      (fun s => Insert hashM s 1 20)).map
      (fun s2 => (s2.freedValues, s2.retiredValues)) = some ([10], []) := by
  decide

/-- C3 amended: when insert finds an existing regular node for the key it
replaces the node's value pointer atomically (an exchange) and deletes
the displaced value inline (`delete old_value;`, lockfree_hashtable.h
line 463) — the displaced value is not handed to the reclaimer. -/
theorem C3_update_frees_displaced_value_inline {K V : Type} [LinearOrder K]
    (hashF : K → Nat) (Hh : ∀ k0 : K, hashF k0 < 2 ^ 64)
    (s : TableState K V) (hInv : Inv hashF s) (k : K) (v : V)
    (hc : contains hashF s k = true) :
    ∃ s2 old, Insert hashF s k v = some s2
      ∧ HNode.regular k (hashF k) (some old) ∈ s.list
      ∧ HNode.regular k (hashF k) (some v) ∈ s2.list
      ∧ s2.freedValues = old :: s.freedValues
      ∧ s2.retiredValues = s.retiredValues
      ∧ s2.size = s.size := by
  obtain ⟨hupd, _, _⟩ := Insert_spec Hh hInv k v
  obtain ⟨s2, old, heq, hI, hsz, hpow, hmemv, hmemold, hfreed, hret⟩ := hupd hc
  exact ⟨s2, old, heq, hmemold, hmemv, hfreed, hret, hsz⟩

theorem C3_witness :
    Inv hashM exTable ∧ contains hashM exTable 1 = true
    ∧ ∃ s2 old, Insert hashM exTable 1 20 = some s2
      ∧ HNode.regular 1 (hashM 1) (some old) ∈ exTable.list
      ∧ HNode.regular 1 (hashM 1) (some 20) ∈ s2.list
      ∧ s2.freedValues = old :: exTable.freedValues
      ∧ s2.retiredValues = exTable.retiredValues
      ∧ s2.size = exTable.size :=
  ⟨by decide, by decide,
   C3_update_frees_displaced_value_inline hashM hashM_lt exTable (by decide) 1 20
     (by decide)⟩

/-- C4: deleting an absent key returns false and leaves `size()`
unchanged; deleting a present key returns true, and repeating that
delete returns false — true exactly once. -/
theorem C4_delete_semantics {K V : Type} [LinearOrder K] (hashF : K → Nat)
    (Hh : ∀ k0 : K, hashF k0 < 2 ^ 64) (s : TableState K V) (hInv : Inv hashF s)
    (k : K) :
    (contains hashF s k = false →
      (Delete hashF s k).1 = false ∧ (Delete hashF s k).2.size = s.size)
    ∧ (contains hashF s k = true →
      (Delete hashF s k).1 = true
      ∧ (Delete hashF (Delete hashF s k).2 k).1 = false) := by
  obtain ⟨habs, hpres⟩ := Delete_spec Hh hInv k
  refine ⟨fun hc => ⟨(habs hc).1, (habs hc).2.1⟩, fun hc => ?_⟩
  obtain ⟨ht, hI2, hnc2, _⟩ := hpres hc
  obtain ⟨habs2, _⟩ := Delete_spec Hh hI2 k
  exact ⟨ht, (habs2 hnc2).1⟩

theorem C4_witness :
    (contains hashM exTable 7 = false
      ∧ (Delete hashM exTable 7).1 = false ∧ (Delete hashM exTable 7).2.size = 1)
    ∧ (contains hashM exTable 1 = true
      ∧ (Delete hashM exTable 1).1 = true
      ∧ (Delete hashM (Delete hashM exTable 1).2 1).1 = false) :=
  ⟨⟨by decide,
    (C4_delete_semantics hashM hashM_lt exTable (by decide) 7).1 (by decide)⟩,
   ⟨by decide,
    (C4_delete_semantics hashM hashM_lt exTable (by decide) 1).2 (by decide)⟩⟩

/-- C5: after every successful insertion of a fresh (non-duplicate) key,
if the incremented size exceeds `kLoadFactor` (= 1/2) times the current
bucket count `1 << power_of_2_` then `power_of_2_` rises by exactly one
and the bucket count doubles, and otherwise both are unchanged; in
particular, on a fresh table inserting key 1 then key 2 under the
identity hash leaves `bucket_size()` at 4. -/
theorem C5_load_factor_growth :
    (∀ (K V : Type) [LinearOrder K] (hashF : K → Nat),
      (∀ k0 : K, hashF k0 < 2 ^ 64) →
      ∀ (s : TableState K V), Inv hashF s →
      ∀ (k : K) (v : V) (s2 : TableState K V),
      contains hashF s k = false → Insert hashF s k v = some s2 →
      (if 2 ^ s.power_of_2 < 2 * (s.size + 1)
       then s2.power_of_2 = s.power_of_2 + 1 ∧ bucket_size s2 = 2 * bucket_size s
       else s2.power_of_2 = s.power_of_2 ∧ bucket_size s2 = bucket_size s))
    ∧ ((Insert hashM (initTable : TableState Nat Nat) 1 1).bind
        (fun t => Insert hashM t 2 2)).map bucket_size = some 4 := by
  constructor
  · intro K V _ hashF Hh s hInv k v s2 hc heq
    obtain ⟨_, htrap, hlink⟩ := Insert_spec Hh hInv k v
    by_cases h5 : s.size = 5
    · rw [htrap hc h5] at heq; cases heq
    · obtain ⟨s2', heq', hI, hsz, hpow, hmem, _, _⟩ := hlink hc h5
      rw [heq'] at heq
      injection heq with heq
      subst heq
      by_cases hcond : 2 ^ s.power_of_2 < 2 * (s.size + 1)
      · rw [if_pos hcond] at hpow ⊢
        refine ⟨hpow, ?_⟩
        show (1 : Nat) <<< s2'.power_of_2 = 2 * (1 <<< s.power_of_2)
        rw [Nat.one_shiftLeft, Nat.one_shiftLeft, hpow, pow_succ]
        ring
      · rw [if_neg hcond] at hpow ⊢
        refine ⟨hpow, ?_⟩
        show (1 : Nat) <<< s2'.power_of_2 = 1 <<< s.power_of_2
        rw [hpow]
  · decide

theorem C5_witness :
    contains hashM exTable 2 = false
    ∧ Insert hashM exTable 2 2 = some exTable2
    ∧ (if 2 ^ exTable.power_of_2 < 2 * (exTable.size + 1)
       then exTable2.power_of_2 = exTable.power_of_2 + 1
         ∧ bucket_size exTable2 = 2 * bucket_size exTable
       else exTable2.power_of_2 = exTable.power_of_2
         ∧ bucket_size exTable2 = bucket_size exTable) :=
  ⟨by decide, by decide,
   C5_load_factor_growth.1 Nat Nat hashM hashM_lt exTable (by decide) 2 2
     exTable2 (by decide) (by decide)⟩

/-- C10: finding a key absent from the table returns false and assigns
nothing to the caller's out-parameter, which keeps its previous
contents; the out-parameter is written only on a successful find. -/
theorem C10_find_absent_leaves_out_unchanged {K V : Type} [LinearOrder K]
    (hashF : K → Nat) (Hh : ∀ k0 : K, hashF k0 < 2 ^ 64)
    (s : TableState K V) (hInv : Inv hashF s) (k : K) (out : V)
    (hc : contains hashF s k = false) :
    (Find hashF s k).1 = (false, none) ∧ FindUpd hashF s k out = out := by
  have h1 := (Find_spec Hh hInv k).1 hc
  refine ⟨h1, ?_⟩
  unfold FindUpd
  rcases hf : Find hashF s k with ⟨res, st⟩
  rw [hf] at h1
  simp only at h1
  subst h1
  rfl

theorem C10_witness :
    contains hashM exTable 7 = false
    ∧ (Find hashM exTable 7).1 = (false, none) ∧ FindUpd hashM exTable 7 42 = 42 :=
  ⟨by decide,
   C10_find_absent_leaves_out_unchanged hashM hashM_lt exTable (by decide) 7 42
     (by decide)⟩

end SplitOrder
